import Mathlib

/- Verification development for main.py of the NamespaceToClass repository:
   a converter from member-offset dumps to C++ struct declarations.

   Embedding conventions.  Python strings are modelled as Lean String
   (lists of Char).  The Unicode-aware character classes of Python regexes
   and of str.strip and str.splitlines are modelled by their ASCII
   behaviour.  Python dicts are modelled as insertion-ordered association
   lists (insertion keeps the first position of an existing key and
   updates its value, exactly as CPython does); Python sets are modelled
   as insertion-ordered duplicate-free lists.  CPython iterates a set of
   strings in an unspecified hash order; the embedding fixes first
   insertion order, and none of the theorems below depend on that choice.
   Python ints are modelled as Int where they can go negative (the
   in-degree counters of order_classes) and as Nat elsewhere (offsets and
   sizes, which are parsed from unsigned hex literals).  The two regexes
   of main.py are embedded as explicit backtracking matchers whose
   greedy and lazy choices are resolved exactly as Python's engine
   resolves them; each resolution is justified in a comment. -/

set_option maxRecDepth 16384

namespace NTC

/-- ASCII model of the regex word class (backslash-w). -/
def isPyWord (c : Char) : Bool :=
  (('a' ≤ c && c ≤ 'z') || ('A' ≤ c && c ≤ 'Z') || ('0' ≤ c && c ≤ '9') || c = '_')

/-- ASCII model of the regex whitespace class (backslash-s) and of the
characters stripped by str.strip. -/
def isPySpace (c : Char) : Bool :=
  (c = ' ' || c = '\t' || c = '\n' || c = '\r' || c = '\x0b' || c = '\x0c')

/-- Decimal digit, the regex class backslash-d restricted to ASCII. -/
def isPyDigit (c : Char) : Bool := ('0' ≤ c && c ≤ '9')

/-- The character class of the hex-offset group 0x[0-9A-Fa-f]+. -/
def isPyHex (c : Char) : Bool :=
  (('0' ≤ c && c ≤ '9') || ('a' ≤ c && c ≤ 'f') || ('A' ≤ c && c ≤ 'F'))

/-- The character class of the array-pattern base group: letters, digits,
underscore and template or scope punctuation. -/
def isBaseChar (c : Char) : Bool :=
  (isPyWord c || c = '<' || c = '>' || c = ':')

/-- Numeric value of one hex digit. -/
def hexVal (c : Char) : Nat :=
  if '0' ≤ c && c ≤ '9' then c.toNat - ('0').toNat
  else if 'a' ≤ c && c ≤ 'f' then c.toNat - ('a').toNat + 10
  else if 'A' ≤ c && c ≤ 'F' then c.toNat - ('A').toNat + 10
  else 0

/-- Value of a hex digit string, as read by int(s, 16) on the digits
after the 0x marker. -/
def hexToNat (s : List Char) : Nat :=
  s.foldl (fun a c => a * 16 + hexVal c) 0

/-- Value of a decimal digit string, as read by int(s). -/
def decToNat (s : List Char) : Nat :=
  s.foldl (fun a c => a * 10 + (c.toNat - ('0').toNat)) 0

/-- Match a literal character sequence at the head of the input,
returning the rest. -/
def dropLit : List Char → List Char → Option (List Char)
  | [], s => some s
  | _ :: _, [] => none
  | l :: lt, c :: ct => if c = l then dropLit lt ct else none

/-- Python str.strip on a character list. -/
def pyStripL (s : List Char) : List Char :=
  ((s.dropWhile isPySpace).reverse.dropWhile isPySpace).reverse

/-- Python str.strip on a String. -/
def pyStripStr (s : String) : String := String.mk (pyStripL s.data)

/-- Line-break characters recognised by str.splitlines (ASCII part plus
the next-line and Unicode separator characters). -/
def isPyLineBreak (c : Char) : Bool :=
  (c = '\n' || c = '\r' || c = '\x0b' || c = '\x0c' || c = '\x1c' ||
   c = '\x1d' || c = '\x1e' || c = '\x85' || c = '\u2028' || c = '\u2029')

/-- Worker for str.splitlines: the carriage-return line-feed pair counts
as a single break, and a trailing break does not open an empty last
line. -/
def pySplitlinesAux : List Char → List Char → List String
  | [], acc => if acc.isEmpty then [] else [String.mk acc.reverse]
  | '\r' :: '\n' :: t, acc => String.mk acc.reverse :: pySplitlinesAux t []
  | c :: t, acc =>
    if isPyLineBreak c then String.mk acc.reverse :: pySplitlinesAux t []
    else pySplitlinesAux t (c :: acc)

/-- Python str.splitlines. -/
def pySplitlines (s : List Char) : List String := pySplitlinesAux s []

/- ------------------------------------------------------------------
   The field regex of main.py (offset_pattern, also offset_re, built
   three times from the same literal):
     constexpr std::ptrdiff_t\s+(\w+)\s*=\s*(0x[0-9A-Fa-f]+);\s*//\s*(.+)
   Greediness resolution: every \s run is followed by a character class
   disjoint from whitespace, and the \w+ and hex groups are followed by
   a character outside their class, so those greedy repetitions match
   exactly their maximal runs.  The only genuine backtracking is between
   the final lazy-free pair: a greedy \s* followed by the dot-plus group,
   where the dot does not match a line feed; the engine shortens the
   whitespace run until the next character exists and is not a line
   feed.  dotPlusFrom walks that backtracking from the maximal run
   downward. -/

/-- Backtracking for the final whitespace-star followed by dot-plus of
the field regex: w is the current length of the whitespace match; the
group succeeds at the largest w whose following character exists and is
not a line feed, and then takes the maximal run of non-line-feed
characters. -/
def dotPlusFrom (r : List Char) : Nat → Option (List Char)
  | 0 =>
    match r with
    | [] => none
    | c :: _ => if c = '\n' then none else some (r.takeWhile (fun x => !(x = '\n')))
  | w + 1 =>
    match r.drop (w + 1) with
    | [] => dotPlusFrom r w
    | c :: _ =>
      if c = '\n' then dotPlusFrom r w
      else some ((r.drop (w + 1)).takeWhile (fun x => !(x = '\n')))

/-- The tail of the field regex after the double slash: whitespace-star
then the dot-plus group. -/
def gThree (r : List Char) : Option (List Char) :=
  dotPlusFrom r (r.takeWhile isPySpace).length

/-- The literal head of the field regex. -/
def offsetLit : List Char := ("constexpr std::ptrdiff_t").data

/-- Anchored match of the field regex at the head of s, returning the
variable name, the offset value and the raw type group. -/
def tryOffsetAt (s : List Char) : Option (String × Nat × String) :=
  match dropLit offsetLit s with
  | none => none
  | some r1 =>
    let sp := r1.takeWhile isPySpace
    if sp.isEmpty then none else
    let r2 := r1.drop sp.length
    let w := r2.takeWhile isPyWord
    if w.isEmpty then none else
    let r3 := (r2.drop w.length).dropWhile isPySpace
    match r3 with
    | '=' :: r4 =>
      let r5 := r4.dropWhile isPySpace
      match dropLit (("0x").data) r5 with
      | none => none
      | some r6 =>
        let hx := r6.takeWhile isPyHex
        if hx.isEmpty then none else
        match r6.drop hx.length with
        | ';' :: r7 =>
          let r8 := r7.dropWhile isPySpace
          match dropLit (("//").data) r8 with
          | none => none
          | some r9 =>
            match gThree r9 with
            | some g3 => some (String.mk w, hexToNat hx, String.mk g3)
            | none => none
        | _ => none
    | _ => none

/-- re.search with the field regex: try an anchored match at every
position from the left and return the first success. -/
def offsetSearchL : List Char → Option (String × Nat × String)
  | [] => none
  | s@(_ :: t) =>
    match tryOffsetAt s with
    | some r => some r
    | none => offsetSearchL t

/-- re.search with offset_pattern on a Python string. -/
def offsetSearch (s : String) : Option (String × Nat × String) :=
  offsetSearchL s.data

/- ------------------------------------------------------------------
   The class regex of main.py (class_pattern, DOTALL):
     // Parent:\s*(\w+).*?namespace\s+(\w+)\s*\{([^}]*)\}
   Greediness resolution: the \s* after the Parent marker is followed by
   \w+, which cannot match whitespace, so it is exactly maximal; inside
   the tail, \s+ and the second \w+ and the bracket-free body group are
   each followed by a character outside their class, so they are exactly
   maximal.  Two choices interact: the greedy first \w+ (tried longest
   first) and the lazy dot-star (tried shortest first, and under DOTALL
   the dot matches anything, so it scans for the first position where
   the tail matches).  classDescend walks the parent-group length from
   the maximal word run downward, and scanTail scans the tail from the
   nearest position, exactly the engine's order. -/

/-- The parent-annotation literal of the class regex. -/
def parentLit : List Char := ("// Parent:").data

/-- The namespace keyword literal of the class regex. -/
def nsLit : List Char := ("namespace").data

/-- Anchored match of the class-regex tail
namespace\s+(\w+)\s*open-brace([^close-brace]*)close-brace, returning
the class name group, the body group and the rest of the input. -/
def tailMatch (p : List Char) : Option (String × String × List Char) :=
  match dropLit nsLit p with
  | none => none
  | some r1 =>
    let sp := r1.takeWhile isPySpace
    if sp.isEmpty then none else
    let r2 := r1.drop sp.length
    let w2 := r2.takeWhile isPyWord
    if w2.isEmpty then none else
    let r3 := (r2.drop w2.length).dropWhile isPySpace
    match r3 with
    | '\x7b' :: r4 =>
      let body := r4.takeWhile (fun c => !(c = '\x7d'))
      match r4.drop body.length with
      | '\x7d' :: rest => some (String.mk w2, String.mk body, rest)
      | _ => none
    | _ => none

/-- The lazy dot-star: scan for the first position at which the
class-regex tail matches. -/
def scanTail : List Char → Option (String × String × List Char)
  | [] => none
  | s@(_ :: t) =>
    match tailMatch s with
    | some r => some r
    | none => scanTail t

/-- Backtracking over the length of the parent-name group: the engine
tries the longest word run first and shortens it until the rest of the
pattern can match. -/
def classDescend (w : List Char) (r2 : List Char) :
    Nat → Option (String × String × String × List Char)
  | 0 => none
  | l + 1 =>
    match scanTail (r2.drop (l + 1)) with
    | some (nm, body, rest) => some (String.mk (w.take (l + 1)), nm, body, rest)
    | none => classDescend w r2 l

/-- Anchored match of the whole class regex, returning the parent group,
the class-name group, the body group and the rest of the input. -/
def tryClassAt (s : List Char) : Option (String × String × String × List Char) :=
  match dropLit parentLit s with
  | none => none
  | some r1 =>
    let r2 := r1.dropWhile isPySpace
    let w := r2.takeWhile isPyWord
    if w.isEmpty then none else classDescend w r2 w.length

/-- re.finditer with the class regex: repeatedly find the leftmost match
and continue scanning after its end.  Every successful match consumes at
least the ten characters of the parent-annotation literal and every
failure advances one character, so fuel equal to the input length plus
one never runs out. -/
def classFinditerAux : Nat → List Char → List (String × String × String)
  | 0, _ => []
  | _ + 1, [] => []
  | fuel + 1, s@(_ :: t) =>
    match tryClassAt s with
    | some (g1, g2, g3, rest) => (g1, g2, g3) :: classFinditerAux fuel rest
    | none => classFinditerAux fuel t

/-- parse_classes of main.py: iterate the class regex over the text; for
each match take the parent group, the name group, and as fields the
stripped member lines of the stripped body that the field regex accepts.
The triples are (name, parent, fields), in match order. -/
def parse_classes (text : String) : List (String × String × List String) :=
  (classFinditerAux (text.data.length + 1) text.data).map (fun m =>
    let lines := pySplitlines (pyStripL m.2.2.data)
    (m.2.1, m.1, (lines.filter (fun l => (offsetSearch l).isSome)).map pyStripStr))

/- ------------------------------------------------------------------
   Association-list model of Python dicts. -/

/-- Dict lookup. -/
def dictGet {α : Type} : List (String × α) → String → Option α
  | [], _ => none
  | (k', v) :: t, k => if k' = k then some v else dictGet t k

/-- Dict lookup with a default. -/
def dictGetD {α : Type} (d : List (String × α)) (k : String) (dflt : α) : α :=
  (dictGet d k).getD dflt

/-- Dict membership. -/
def dictContains {α : Type} (d : List (String × α)) (k : String) : Bool :=
  (dictGet d k).isSome

/-- Dict insertion: updating an existing key keeps its position, as in
CPython. -/
def dictInsert {α : Type} : List (String × α) → String → α → List (String × α)
  | [], k, v => [(k, v)]
  | (k', v') :: t, k, v =>
    if k' = k then (k', v) :: t else (k', v') :: dictInsert t k v

/-- Python set.add on the insertion-ordered list model. -/
def pySetAdd (l : List String) (x : String) : List String :=
  if l.contains x then l else l ++ [x]

/- ------------------------------------------------------------------
   The type tables of main.py. -/

/-- type_map of main.py. -/
def type_map : List (String × String) :=
  [("bool", "bool"),
   ("uint8", "uint8_t"),
   ("uint16", "uint16_t"),
   ("int16", "int16_t"),
   ("int32", "int32_t"),
   ("uint32", "uint32_t"),
   ("int64", "int64_t"),
   ("uint64", "uint64_t"),
   ("float32", "float"),
   ("float", "float"),
   ("Vector", "Vector3"),
   ("Vector2", "Vector2"),
   ("Vector2D", "Vector2"),
   ("Vector3", "Vector3"),
   ("Vector4", "Vector4"),
   ("QAngle", "Vector3"),
   ("Quaternion", "Vector4"),
   ("char", "char"),
   ("CUtlStringToken", "uint32_t"),
   ("CModelState", "void*")]

/-- array_map of main.py. -/
def array_map : List (String × String) :=
  [("Vector2D", "Vector2"),
   ("float[2]", "Vector2"),
   ("float[3]", "Vector3"),
   ("float[4]", "Vector4")]

/-- pointer_size of main.py (x64 target). -/
def pointer_size : Nat := 8

/-- size_map of main.py. -/
def size_map : List (String × Nat) :=
  [("bool", 1),
   ("int", 4),
   ("uint8_t", 1),
   ("int16_t", 2),
   ("uint16_t", 2),
   ("int32_t", 4),
   ("uint32_t", 4),
   ("float", 4),
   ("int64_t", 8),
   ("uint64_t", 8),
   ("uintptr_t", pointer_size),
   ("void*", pointer_size),
   ("char", 1),
   ("Vector2", 8),
   ("Vector3", 12),
   ("QAngle", 12),
   ("Vector4", 16)]

/-- special_map of main.py. -/
def special_map : List (String × (String × Nat)) :=
  [("CHandle<C_BaseEntity>", ("uint32_t", 4)),
   ("CHandle<C_BaseModelEntity>", ("uint32_t", 4)),
   ("CUtlStringToken", ("uint32_t", 4)),
   ("GameTime_t", ("float", 4)),
   ("GameTick_t", ("int32_t", 4)),
   ("AttachmentHandle_t", ("uint8_t", 1))]

/-- The list of values of type_map, as iterated by type_map.values(). -/
def typeMapValues : List String := type_map.map (fun kv => kv.2)

/-- Return type of normalize_type: Python returns either a plain string
(a scalar type name) or a pair of a base type name and an element
count. -/
inductive PyType where
  | str (name : String)
  | tup (base : String) (count : Nat)
deriving DecidableEq

/-- Anchored match (re.match) of array_pattern
([A-Za-z0-9_<>:]+)followed by a bracketed decimal count: the base run
and the digit run are each followed by a character outside their class,
so both greedy repetitions are exactly maximal; trailing characters
after the closing bracket are allowed, as re.match does not anchor the
end. -/
def arrayMatch (s : List Char) : Option (String × Nat) :=
  let b := s.takeWhile isBaseChar
  if b.isEmpty then none else
  match s.drop b.length with
  | '[' :: r =>
    let ds := r.takeWhile isPyDigit
    if ds.isEmpty then none else
    match r.drop ds.length with
    | ']' :: _ => some (String.mk b, decToNat ds)
    | _ => none
  | _ => none

/-- normalize_type of main.py. -/
def normalize_type (ctype0 : String) : PyType :=
  let ctype := pyStripStr ctype0
  match arrayMatch ctype.data with
  | some (base0, count) =>
    let base := pyStripStr base0
    match dictGet type_map base with
    | some t => PyType.tup t count
    | none =>
      if typeMapValues.contains base then PyType.tup base count
      else PyType.tup ("uint32_t") count
  | none =>
    match dictGet array_map ctype with
    | some t => PyType.str t
    | none =>
      match dictGet type_map ctype with
      | some t => PyType.str t
      | none =>
        if typeMapValues.contains ctype then PyType.str ctype
        else
          match dictGet special_map ctype with
          | some pr => PyType.str pr.1
          | none => PyType.str ("uint32_t")

/-- The byte size that main.py assigns to a normalized type at both use
sites (compute_class_sizes and convert_file duplicate this computation
verbatim): size_map lookup with default 4, multiplied by the count for
arrays. -/
def resolved_size : PyType → Nat
  | PyType.tup base count => (dictGetD size_map base 4) * count
  | PyType.str t => dictGetD size_map t 4

/- ------------------------------------------------------------------
   order_classes of main.py: Kahn's algorithm over the child-to-parent
   graph. -/

/-- A record as produced by parse_classes: name, parent annotation,
field lines. -/
abbrev ClassTriple := String × String × List String

/-- A record as produced by order_classes: the parent is replaced by
None when its name is not a key of name_to_class. -/
abbrev OrdTriple := String × Option String × List String

/-- The name_to_class dict comprehension: keyed by name, so a later
record with the same name overwrites the earlier one. -/
def buildNtc (classes : List ClassTriple) : List (String × ClassTriple) :=
  classes.foldl (fun d t => dictInsert d t.1 t) []

/-- One iteration of the deps and rev_deps loop: for a record whose
parent is truthy (nonempty) and a key of name_to_class, add the parent
to deps of the name and the name to rev_deps of the parent, with set
semantics. -/
def depRevStep (ntc : List (String × ClassTriple))
    (dr : List (String × List String) × List (String × List String))
    (t : ClassTriple) :
    List (String × List String) × List (String × List String) :=
  if t.2.1 ≠ "" && dictContains ntc t.2.1 then
    (dictInsert dr.1 t.1 (pySetAdd (dictGetD dr.1 t.1 []) t.2.1),
     dictInsert dr.2 t.2.1 (pySetAdd (dictGetD dr.2 t.2.1 []) t.1))
  else dr

/-- The deps and rev_deps defaultdicts, built by one pass over the
records. -/
def buildDepRev (ntc : List (String × ClassTriple)) (classes : List ClassTriple) :
    List (String × List String) × List (String × List String) :=
  classes.foldl (depRevStep ntc) ([], [])

/-- The indegree dict comprehension: each class name maps to the number
of its deps; Python ints are signed, and the loop below drives entries
negative, so the values are Int. -/
def buildIndeg (deps : List (String × List String)) (classes : List ClassTriple) :
    List (String × Int) :=
  classes.foldl (fun d t => dictInsert d t.1 (Int.ofNat (dictGetD deps t.1 []).length)) []

/-- One decrement of the inner loop: lower the dep's indegree by one and
append the dep to the pending queue additions exactly when the new value
is zero. -/
def decStep (st : List (String × Int) × List String) (dep : String) :
    List (String × Int) × List String :=
  let iv := dictGetD st.1 dep 0 - 1
  let d2 := dictInsert st.1 dep iv
  if iv = 0 then (d2, st.2 ++ [dep]) else (d2, st.2)

/-- The while loop of order_classes.  The none branch of the
name_to_class lookup is unreachable (queue entries are always keys);
Python would raise KeyError there.  Fuel bound: every name enters the
queue at most once (a seeded name has indegree zero and decrements only
make it negative; an appended name is appended at its unique transition
to zero), so the number of iterations is at most the number of seeds
plus the number of distinct class names, and the fuel passed by
order_classes never runs out. -/
def kahnAux (ntc : List (String × ClassTriple)) (rev : List (String × List String)) :
    Nat → List String → List (String × Int) → List OrdTriple → List OrdTriple
  | 0, _, _, acc => acc
  | _ + 1, [], _, acc => acc
  | fuel + 1, n :: qs, indeg, acc =>
    match dictGet ntc n with
    | none => acc
    | some t =>
      let p := if dictContains ntc t.2.1 then some t.2.1 else none
      let st := (dictGetD rev n []).foldl decStep (indeg, [])
      kahnAux ntc rev fuel (qs ++ st.2) st.1 (acc ++ [(n, p, t.2.2)])

/-- order_classes of main.py. -/
def order_classes (classes : List ClassTriple) : List OrdTriple :=
  let ntc := buildNtc classes
  let dr := buildDepRev ntc classes
  let indeg := buildIndeg dr.1 classes
  let queue := (indeg.filter (fun kv => kv.2 == 0)).map (fun kv => kv.1)
  kahnAux ntc dr.2 (queue.length + classes.length + 1) queue indeg []

/- ------------------------------------------------------------------
   compute_class_sizes of main.py. -/

/-- The inner loop of compute_class_sizes: the cursor starts at zero
and, for every line the field regex accepts, is raised to the field's
end offset when that exceeds it. -/
def classCursor (fields : List String) : Nat :=
  fields.foldl (fun last line =>
    match offsetSearch line with
    | none => last
    | some g =>
      let e := g.2.1 + resolved_size (normalize_type g.2.2)
      if e > last then e else last) 0

/-- One iteration of compute_class_sizes: the class maps to the maximum
of its cursor result and its parent's already-computed size (default
zero). -/
def sizeStep (sizes : List (String × Nat)) (t : OrdTriple) : List (String × Nat) :=
  let psize := match t.2.1 with
    | some p => dictGetD sizes p 0
    | none => 0
  dictInsert sizes t.1 (max (classCursor t.2.2) psize)

/-- compute_class_sizes of main.py. -/
def compute_class_sizes (ordered : List OrdTriple) : List (String × Nat) :=
  ordered.foldl sizeStep []

/- ------------------------------------------------------------------
   convert_file of main.py.  The body loop is embedded as a fold that
   produces the emitted members in structured form together with the
   final cursor; memberStr renders each member to exactly the line that
   main.py appends. -/

/-- An emitted member of a class body: a padding member recorded with
the cursor position it was named after and its byte length, or a real
field recorded with its resolved type, variable name, offset and
verbatim raw type string. -/
inductive Member where
  | padding (loc len : Nat)
  | scalarField (tname vname : String) (off : Nat) (ctype : String)
  | arrayField (base vname : String) (count off : Nat) (ctype : String)
deriving DecidableEq

/-- The byte size of an emitted member, as the emitter advances its
cursor past it. -/
def memberSize : Member → Nat
  | Member.padding _ len => len
  | Member.scalarField t _ _ _ => dictGetD size_map t 4
  | Member.arrayField b _ c _ _ => (dictGetD size_map b 4) * c

/-- One iteration of the body loop of convert_file: lines the field
regex rejects are skipped; a field whose offset is below the cursor is
dropped; a gap below the field's offset emits a padding member first;
then the field itself is emitted and the cursor moves to its end. -/
def emitStep (st : List Member × Nat) (line : String) : List Member × Nat :=
  match offsetSearch line with
  | none => st
  | some g =>
    let off := g.2.1
    if off < st.2 then st
    else
      let st1 := if off > st.2 then (st.1 ++ [Member.padding st.2 (off - st.2)], off) else st
      match normalize_type g.2.2 with
      | PyType.tup base count =>
        (st1.1 ++ [Member.arrayField base g.1 count off g.2.2],
         off + (dictGetD size_map base 4) * count)
      | PyType.str t =>
        (st1.1 ++ [Member.scalarField t g.1 off g.2.2], off + dictGetD size_map t 4)

/-- The body loop of convert_file over all field lines of a class,
starting the cursor at the parent size. -/
def emitFields (start : Nat) (fields : List String) : List Member × Nat :=
  fields.foldl emitStep ([], start)

/-- Zero-padded upper-case four-digit hex, the Python format spec 04X. -/
def hex4 (n : Nat) : String :=
  let ds := (Nat.toDigits 16 n).map Char.toUpper
  String.mk (List.replicate (4 - ds.length) '0' ++ ds)

/-- Render one emitted member to the exact line convert_file appends. -/
def memberStr : Member → String
  | Member.padding loc len =>
    "    char pad_" ++ hex4 loc ++ "[" ++ toString len ++ "];\n"
  | Member.scalarField t v off c =>
    "    " ++ t ++ " " ++ v ++ "; // 0x" ++ hex4 off ++ " " ++ c ++ "\n"
  | Member.arrayField b v cnt off c =>
    "    " ++ b ++ " " ++ v ++ "[" ++ toString cnt ++ "]; // 0x" ++ hex4 off ++ " " ++ c ++ "\n"

/-- The fixed preamble lines of convert_file, in append order. -/
def preambleLines : List String :=
  ["#pragma once\n", "#include <cstdint>\n", "#include <cstddef>\n\n",
   "struct Vector2 \x7b float x, y; \x7d;\n",
   "struct Vector3 \x7b float x, y, z; \x7d;\n",
   "struct Vector4 \x7b float x, y, z, w; \x7d;\n",
   "using QAngle = Vector3;\n\n"]

/-- The header line of a full class declaration, inheriting from the
parent when one survived ordering. -/
def classHeader (t : OrdTriple) : String :=
  let pd := match t.2.1 with
    | some p => " : public " ++ p
    | none => ""
  "class " ++ t.1 ++ pd ++ "\n\x7b\npublic:\n"

/-- The lines one iteration of the full-declaration loop appends for a
class: header, rendered members, closing line. -/
def classSection (sizes : List (String × Nat)) (t : OrdTriple) : List String :=
  let psize := match t.2.1 with
    | some p => dictGetD sizes p 0
    | none => 0
  classHeader t :: ((emitFields psize t.2.2).1.map memberStr ++ ["\x7d;\n\n"])

/-- The output list of convert_file from the parsed records onward: the
source appends these lines one by one into its output list; the two
loops over the ordered records append per record one forward
declaration, and the lines of classSection, respectively. -/
def convert_from_classes (classes : List ClassTriple) : List String :=
  let ordered := order_classes classes
  let sizes := compute_class_sizes ordered
  preambleLines ++ ordered.map (fun t => "class " ++ t.1 ++ ";\n") ++ ["\n"]
    ++ (ordered.map (classSection sizes)).flatten

/-- convert_file of main.py: parse, order, size, emit, join. -/
def convert_file (text : String) : String :=
  String.join (convert_from_classes (parse_classes text))

/- ------------------------------------------------------------------
   Derived notions used by the theorems. -/

/-- The maximum field end offset of a class body, taken over every line
the field regex accepts, with no overlap test: the closed form of the
compute_class_sizes cursor. -/
def maxEnds (fields : List String) : Nat :=
  fields.foldr (fun line m =>
    match offsetSearch line with
    | none => m
    | some g => max (g.2.1 + resolved_size (normalize_type g.2.2)) m) 0

/-- The names of a list of parsed records. -/
def clsNames (l : List ClassTriple) : List String := l.map (fun t => t.1)

/-- The names of a list of ordered records. -/
def ordNames (l : List OrdTriple) : List String := l.map (fun t => t.1)

/-- Every record name is nonempty.  parse_classes guarantees this (its
name group is a nonempty word run); order_classes on arbitrary records
with an empty-string name could pair a truthiness test against a dict
membership test inconsistently, so the general theorems assume it. -/
def NamesNonempty (cs : List ClassTriple) : Prop := ∀ t ∈ cs, t.1 ≠ ""

/-- Every surviving parent annotation points at an earlier entry of the
ordered sequence. -/
def parentEarlier (l : List OrdTriple) : Prop :=
  ∀ i t, l.get? i = some t → ∀ p, t.2.1 = some p →
    ∃ j t', j < i ∧ l.get? j = some t' ∧ t'.1 = p

/-- The declared byte offset of an emitted member: padding members carry
none. -/
def memberOffset : Member → Option Nat
  | Member.padding _ _ => none
  | Member.scalarField _ _ off _ => some off
  | Member.arrayField _ _ _ off _ => some off

/-- The total byte size of a list of emitted members. -/
def sumSizes (ms : List Member) : Nat := (ms.map memberSize).sum

/-- The member the emitter appends for a parsed field line that is not
dropped: an array field for tuple-normalized types, a scalar field
otherwise. -/
def emittedMember (g : String × Nat × String) : Member :=
  match normalize_type g.2.2 with
  | PyType.tup base count => Member.arrayField base g.1 count g.2.1 g.2.2
  | PyType.str t => Member.scalarField t g.1 g.2.1 g.2.2

/-- How many elements of l (counted with multiplicity) lie in D. -/
def countIn (l D : List String) : Nat :=
  (l.filter (fun y => decide (y ∈ D))).length

/-- Whether the parent-annotation literal occurs anywhere in the text. -/
def hasParentMark : List Char → Bool
  | [] => false
  | s@(_ :: t) => (dropLit parentLit s).isSome || hasParentMark t

/- ------------------------------------------------------------------
   Concrete inputs used by the closed theorems. -/

/-- The concrete scenario input of the spec: one class whose parent
annotation names an unknown class, a float32 field at offset zero and a
Vector field at offset 0x10. -/
def tScenario : String :=
  "// Parent: CUnknown\nnamespace CFoo \x7b\nconstexpr std::ptrdiff_t m_flHealth = 0x0; // float32\nconstexpr std::ptrdiff_t m_vecPos = 0x10; // Vector\n\x7d"

/-- An eight-byte field at offset zero. -/
def fieldLineA : String := "constexpr std::ptrdiff_t a = 0x0; // int64"

/-- An eight-byte field at offset four, overlapping the previous one. -/
def fieldLineB : String := "constexpr std::ptrdiff_t b = 0x4; // int64"

/-- An input with two matched blocks carrying the same class name. -/
def tDup : String :=
  "// Parent: P\nnamespace A \x7b\n\x7d\n// Parent: Q\nnamespace A \x7b\n\x7d"

/-- An input with a child class A whose parent B is extracted later. -/
def tChain : String :=
  "// Parent: B\nnamespace A \x7b\n\x7d\n// Parent: X\nnamespace B \x7b\n\x7d"

/-- A record-level input with a resolvable parent and a field each. -/
def csPair : List ClassTriple :=
  [("CBase", "CMissing", [fieldLineA]), ("CChild", "CBase", [fieldLineB])]

/- ==================================================================
   Lemmas about the association-list dict model. -/

lemma dictGet_insert_self {α : Type} (d : List (String × α)) (k : String) (v : α) :
    dictGet (dictInsert d k v) k = some v := by
  induction d with
  | nil => simp [dictInsert, dictGet]
  | cons h t ih =>
    obtain ⟨k', v'⟩ := h
    by_cases hk : k' = k
    · simp [dictInsert, hk, dictGet]
    · simp [dictInsert, hk, dictGet, ih]

lemma dictGet_insert_ne {α : Type} (d : List (String × α)) (k k' : String) (v : α)
    (h : k ≠ k') : dictGet (dictInsert d k v) k' = dictGet d k' := by
  induction d with
  | nil => simp [dictInsert, dictGet, fun hh => h hh]
  | cons hd t ih =>
    obtain ⟨k0, v0⟩ := hd
    by_cases hk : k0 = k
    · subst hk
      simp [dictInsert, dictGet, h]
    · simp [dictInsert, hk, dictGet, ih]

lemma dictGetD_insert_self {α : Type} (d : List (String × α)) (k : String) (v dflt : α) :
    dictGetD (dictInsert d k v) k dflt = v := by
  simp [dictGetD, dictGet_insert_self]

lemma dictGetD_insert_ne {α : Type} (d : List (String × α)) (k k' : String) (v : α)
    (dflt : α) (h : k ≠ k') : dictGetD (dictInsert d k v) k' dflt = dictGetD d k' dflt := by
  simp [dictGetD, dictGet_insert_ne _ _ _ _ h]

lemma dictContains_insert {α : Type} (d : List (String × α)) (k k' : String) (v : α) :
    dictContains (dictInsert d k v) k' = (k = k' || dictContains d k') := by
  by_cases h : k = k'
  · subst h
    simp [dictContains, dictGet_insert_self]
  · simp [dictContains, dictGet_insert_ne _ _ _ _ h, h]

/-- Keys of a dict after an insert: the inserted key joins the key list
only when it is new. -/
lemma dictKeys_insert {α : Type} (d : List (String × α)) (k : String) (v : α) :
    (dictInsert d k v).map (fun kv => kv.1)
      = if dictContains d k then d.map (fun kv => kv.1)
        else d.map (fun kv => kv.1) ++ [k] := by
  induction d with
  | nil => simp [dictInsert, dictContains, dictGet]
  | cons hd t ih =>
    obtain ⟨k0, v0⟩ := hd
    by_cases hk : k0 = k
    · subst hk
      simp [dictInsert, dictContains, dictGet]
    · have h1 : dictInsert ((k0, v0) :: t) k v = (k0, v0) :: dictInsert t k v := by
        simp [dictInsert, hk]
      have hcc : dictContains ((k0, v0) :: t) k = dictContains t k := by
        simp [dictContains, dictGet, hk]
      rw [h1, hcc, List.map_cons, ih]
      by_cases hc : dictContains t k <;> simp [hc]

/-- Membership in the key list decides dict membership. -/
lemma dictContains_iff_mem_keys {α : Type} (d : List (String × α)) (k : String) :
    dictContains d k = true ↔ k ∈ d.map (fun kv => kv.1) := by
  induction d with
  | nil => simp [dictContains, dictGet]
  | cons hd t ih =>
    obtain ⟨k0, v0⟩ := hd
    by_cases hk : k0 = k
    · simp [dictContains, dictGet, hk]
    · simp [dictContains, dictGet, hk, Ne.symm hk] at ih ⊢
      exact ih

lemma dictInsert_keys_nodup {α : Type} (d : List (String × α)) (k : String) (v : α)
    (h : (d.map (fun kv => kv.1)).Nodup) :
    ((dictInsert d k v).map (fun kv => kv.1)).Nodup := by
  rw [dictKeys_insert]
  by_cases hc : dictContains d k
  · simpa [hc] using h
  · have hk : k ∉ d.map (fun kv => kv.1) := by
      intro hm
      rw [← dictContains_iff_mem_keys] at hm
      simp [hm] at hc
    simp [hc, List.nodup_append, h, hk]

/-- With duplicate-free keys, an entry of the list is the entry the
lookup finds. -/
lemma dictGet_of_mem_nodup {α : Type} (d : List (String × α)) (k : String) (v : α)
    (hn : (d.map (fun kv => kv.1)).Nodup) (hm : (k, v) ∈ d) :
    dictGet d k = some v := by
  induction d with
  | nil => simp at hm
  | cons hd t ih =>
    obtain ⟨k0, v0⟩ := hd
    simp only [List.map_cons, List.nodup_cons] at hn
    rcases List.mem_cons.mp hm with h1 | h2
    · rw [Prod.ext_iff] at h1
      obtain ⟨h1a, h1b⟩ := h1
      simp at h1a h1b
      subst h1a
      simp [dictGet, h1b]
    · have hk : k0 ≠ k := by
        intro he
        subst he
        exact hn.1 (by simpa using List.mem_map_of_mem (fun kv => kv.1) h2)
      simp [dictGet, hk]
      exact ih hn.2 h2

/-- pySetAdd preserves freedom from duplicates. -/
lemma pySetAdd_nodup (l : List String) (x : String) (h : l.Nodup) :
    (pySetAdd l x).Nodup := by
  unfold pySetAdd
  by_cases hm : x ∈ l
  · simp [hm, h]
  · simp [hm, List.nodup_append, h]

lemma mem_pySetAdd_iff (l : List String) (x y : String) :
    y ∈ pySetAdd l x ↔ y ∈ l ∨ y = x := by
  unfold pySetAdd
  by_cases hm : x ∈ l
  · rw [if_pos (by simpa using hm)]
    constructor
    · exact fun h => Or.inl h
    · rintro (h | rfl)
      · exact h
      · exact hm
  · simp [hm, List.mem_append]

/- ==================================================================
   The compute_class_sizes cursor as a closed maximum. -/

lemma if_gt_eq_max (a b : Nat) : (if b > a then b else a) = max a b := by
  split <;> omega

lemma get?_take_of_lt {α : Type} (l : List α) (m n : Nat) (h : m < n) :
    (l.take n).get? m = l.get? m := by
  rw [List.get?_eq_getElem?, List.get?_eq_getElem?, List.getElem?_take_of_lt h]

lemma get?_append_offset {α : Type} (l1 l2 : List α) (k : Nat) :
    (l1 ++ l2).get? (l1.length + k) = l2.get? k := by
  rw [List.get?_append_right (Nat.le_add_right _ _)]
  simp

lemma classCursor_foldl (fields : List String) (c : Nat) :
    fields.foldl (fun last line =>
      match offsetSearch line with
      | none => last
      | some g =>
        let e := g.2.1 + resolved_size (normalize_type g.2.2)
        if e > last then e else last) c = max c (maxEnds fields) := by
  induction fields generalizing c with
  | nil => simp [maxEnds]
  | cons l fs ih =>
    cases h : offsetSearch l with
    | none =>
      simp only [List.foldl_cons, h, maxEnds, List.foldr_cons]
      rw [ih c]
      simp [maxEnds]
    | some g =>
      simp only [List.foldl_cons, h, maxEnds, List.foldr_cons]
      rw [if_gt_eq_max, ih]
      simp only [maxEnds]
      omega

lemma classCursor_eq_maxEnds (fields : List String) :
    classCursor fields = maxEnds fields := by
  unfold classCursor
  rw [classCursor_foldl]
  omega

/-- C1 (amended form).  In compute_class_sizes no field is skipped: the
cursor a class reaches is the maximum end offset over all lines the
field regex accepts, with every field contributing its end offset
regardless of whether its offset lies below the cursor. -/
theorem claim_C1_compute_no_skip (fields : List String) :
    classCursor fields = maxEnds fields :=
  classCursor_eq_maxEnds fields

/-- C1 (counterexample to the claim as stated).  For a class with an
eight-byte field at offset zero followed by an eight-byte field at
offset four, the second field's offset (four) is strictly below the
cursor (eight), yet the computed size is twelve, not the eight it would
be had the overlapping field been skipped and contributed nothing. -/
theorem claim_C1_counterexample :
    classCursor [fieldLineA] = 8 ∧
    offsetSearch fieldLineB = some ("b", 4, "int64") ∧ 4 < 8 ∧
    classCursor [fieldLineA, fieldLineB] = 12 ∧
    dictGet (compute_class_sizes [("A", none, [fieldLineA, fieldLineB])]) "A" = some 12 ∧
    dictGet (compute_class_sizes [("A", none, [fieldLineA])]) "A" = some 8 := by
  refine ⟨by decide, by decide, by decide, by decide, by decide, by decide⟩

/- ==================================================================
   normalize_type: fallbacks and array precedence. -/

/-- C8.  normalize_type is total by construction; a stripped input that
matches no array pattern, no array alias, no type_map key or canonical
value and no special-case entry falls back to the four-byte uint32_t
scalar, and a matched array whose base resolves through none of the
type_map keys or values falls back to a uint32_t element array of the
same count, of byte size four per element. -/
theorem claim_C8_normalize_total_fallback :
    (∀ s : String, arrayMatch (pyStripStr s).data = none →
      dictGet array_map (pyStripStr s) = none →
      dictGet type_map (pyStripStr s) = none →
      typeMapValues.contains (pyStripStr s) = false →
      dictGet special_map (pyStripStr s) = none →
      normalize_type s = PyType.str ("uint32_t") ∧
      resolved_size (normalize_type s) = 4) ∧
    (∀ (s b : String) (n : Nat), arrayMatch (pyStripStr s).data = some (b, n) →
      dictGet type_map (pyStripStr b) = none →
      typeMapValues.contains (pyStripStr b) = false →
      normalize_type s = PyType.tup ("uint32_t") n ∧
      resolved_size (normalize_type s) = 4 * n) := by
  constructor
  · intro s h1 h2 h3 h4 h5
    unfold normalize_type
    simp only [h1, h2, h3, h4, h5]
    constructor
    · rfl
    · rfl
  · intro s b n h1 h2 h3
    have hn : normalize_type s = PyType.tup ("uint32_t") n := by
      unfold normalize_type
      simp only [h1, h2, h3, Bool.false_eq_true, if_false]
    refine ⟨hn, ?_⟩
    rw [hn]
    show dictGetD size_map ("uint32_t") 4 * n = 4 * n
    have h4 : dictGetD size_map ("uint32_t") 4 = 4 := by decide
    rw [h4]

/-- C8 witness: the unknown token Foobar falls back to the four-byte
scalar, and the unknown array base in Foobar[7] falls back to a
uint32_t array of count seven. -/
theorem claim_C8_witness :
    normalize_type ("Foobar") = PyType.str ("uint32_t") ∧
    resolved_size (normalize_type ("Foobar")) = 4 ∧
    normalize_type ("Foobar[7]") = PyType.tup ("uint32_t") 7 ∧
    resolved_size (normalize_type ("Foobar[7]")) = 4 * 7 := by
  have h1 := claim_C8_normalize_total_fallback.1 ("Foobar")
    (by decide) (by decide) (by decide) (by decide) (by decide)
  have h2 := claim_C8_normalize_total_fallback.2 ("Foobar[7]") ("Foobar") 7
    (by decide) (by decide) (by decide)
  exact ⟨h1.1, h1.2, h2.1, h2.2⟩

/-- C4.  On the concrete scenario input the pipeline extracts one class
CFoo with an unresolvable parent, and emits for it exactly, in order: a
four-byte float field at offset zero, a twelve-byte padding member named
after cursor position four, and a twelve-byte three-component vector
field at offset 0x10; the computed size of the class is 28 bytes. -/
theorem claim_C4_scenario :
    order_classes (parse_classes tScenario)
      = [("CFoo", none,
          ["constexpr std::ptrdiff_t m_flHealth = 0x0; // float32",
           "constexpr std::ptrdiff_t m_vecPos = 0x10; // Vector"])] ∧
    dictGet (compute_class_sizes (order_classes (parse_classes tScenario))) "CFoo"
      = some 28 ∧
    (emitFields 0
        ["constexpr std::ptrdiff_t m_flHealth = 0x0; // float32",
         "constexpr std::ptrdiff_t m_vecPos = 0x10; // Vector"])
      = ([Member.scalarField "float" "m_flHealth" 0 "float32",
          Member.padding 4 12,
          Member.scalarField "Vector3" "m_vecPos" 16 "Vector"], 28) ∧
    memberSize (Member.scalarField "float" "m_flHealth" 0 "float32") = 4 ∧
    memberSize (Member.padding 4 12) = 12 ∧
    memberSize (Member.scalarField "Vector3" "m_vecPos" 16 "Vector") = 12 ∧
    memberStr (Member.padding 4 12) = "    char pad_0004[12];\n" ∧
    convert_from_classes (parse_classes tScenario)
      = preambleLines ++
        ["class CFoo;\n", "\n",
         "class CFoo\n\x7b\npublic:\n",
         "    float m_flHealth; // 0x0000 float32\n",
         "    char pad_0004[12];\n",
         "    Vector3 m_vecPos; // 0x0010 Vector\n",
         "\x7d;\n\n"] := by
  refine ⟨by decide, by decide, by decide, by decide, by decide, by decide,
    by decide, by decide⟩

/-- C5 (counterexample to the claim as stated).  The extractor keeps two
records for the duplicated class name A, but the ordered output contains
only one record for A, not both: order_classes keys its working dicts by
name. -/
theorem claim_C5_counterexample :
    parse_classes tDup = [("A", "P", []), ("A", "Q", [])] ∧
    order_classes (parse_classes tDup) = [("A", none, [])] ∧
    (order_classes (parse_classes tDup)).length ≠ (parse_classes tDup).length := by
  refine ⟨by decide, by decide, by decide⟩

/-- C9.  The literal float[3] goes through the bracketed-array rule:
base float of element size four and count three, total size twelve —
even though the array-aliasing table maps the very same literal to the
three-component vector type, a result the array rule shadows. -/
theorem claim_C9_array_precedence :
    normalize_type ("float[3]") = PyType.tup ("float") 3 ∧
    dictGetD size_map ("float") 4 = 4 ∧
    resolved_size (normalize_type ("float[3]")) = 12 ∧
    dictGet array_map ("float[3]") = some ("Vector3") ∧
    normalize_type ("float[3]") ≠ PyType.str ("Vector3") := by
  refine ⟨by decide, by decide, by decide, by decide, by decide⟩

/- ==================================================================
   Construction lemmas for the dicts order_classes builds. -/

lemma clsNames_cons (c : ClassTriple) (cst : List ClassTriple) :
    clsNames (c :: cst) = c.1 :: clsNames cst := rfl

lemma foldNtc_mem (cs : List ClassTriple) :
    ∀ (d0 : List (String × ClassTriple)) (n : String) (t : ClassTriple),
      dictGet (cs.foldl (fun d t => dictInsert d t.1 t) d0) n = some t →
      (t ∈ cs ∧ t.1 = n) ∨ dictGet d0 n = some t := by
  induction cs with
  | nil =>
    intro d0 n t h
    exact Or.inr h
  | cons c cst ih =>
    intro d0 n t h
    simp only [List.foldl_cons] at h
    rcases ih _ n t h with h1 | h2
    · exact Or.inl ⟨List.mem_cons_of_mem _ h1.1, h1.2⟩
    · by_cases hk : c.1 = n
      · subst hk
        rw [dictGet_insert_self] at h2
        injection h2 with h2
        subst h2
        exact Or.inl ⟨List.mem_cons_self _ _, rfl⟩
      · rw [dictGet_insert_ne _ _ _ _ hk] at h2
        exact Or.inr h2

lemma buildNtc_mem (cs : List ClassTriple) (n : String) (t : ClassTriple)
    (h : dictGet (buildNtc cs) n = some t) : t ∈ cs ∧ t.1 = n := by
  unfold buildNtc at h
  rcases foldNtc_mem cs [] n t h with h1 | h2
  · exact h1
  · simp [dictGet] at h2

lemma buildNtc_contains_mem (cs : List ClassTriple) (k : String)
    (h : dictContains (buildNtc cs) k = true) : k ∈ clsNames cs := by
  unfold dictContains at h
  cases hg : dictGet (buildNtc cs) k with
  | none => rw [hg] at h; simp at h
  | some t =>
    obtain ⟨hm, he⟩ := buildNtc_mem cs k t hg
    exact he ▸ List.mem_map_of_mem (fun kv => kv.1) hm

lemma foldInsertF {α : Type} (f : String → α) (cs : List ClassTriple) :
    ∀ (d0 : List (String × α)) (n : String),
      dictGet (cs.foldl (fun d t => dictInsert d t.1 (f t.1)) d0) n
        = if n ∈ clsNames cs then some (f n) else dictGet d0 n := by
  induction cs with
  | nil =>
    intro d0 n
    simp [clsNames]
  | cons c cst ih =>
    intro d0 n
    simp only [List.foldl_cons]
    rw [ih]
    by_cases hmem : n ∈ clsNames cst
    · have hn : n ∈ clsNames (c :: cst) := by
        rw [clsNames_cons]
        exact List.mem_cons_of_mem _ hmem
      simp [hmem, hn]
    · by_cases hk : c.1 = n
      · subst hk
        have hn : c.1 ∈ clsNames (c :: cst) := by
          rw [clsNames_cons]
          exact List.mem_cons_self _ _
        simp [hmem, hn, dictGet_insert_self]
      · have hn : n ∉ clsNames (c :: cst) := by
          rw [clsNames_cons]
          intro hx
          rcases List.mem_cons.mp hx with hx | hx
          · exact hk hx.symm
          · exact hmem hx
        simp [hmem, hn, dictGet_insert_ne _ _ _ _ hk]

lemma buildIndeg_get (deps : List (String × List String)) (cs : List ClassTriple)
    (n : String) :
    dictGet (buildIndeg deps cs) n
      = if n ∈ clsNames cs then some (Int.ofNat (dictGetD deps n []).length)
        else none := by
  unfold buildIndeg
  have h := foldInsertF (fun m => Int.ofNat (dictGetD deps m []).length) cs [] n
  simp only [dictGet] at h
  exact h

lemma foldInsert_keys_nodup {α : Type} (g : ClassTriple → α) (cs : List ClassTriple) :
    ∀ d0 : List (String × α), (d0.map (fun kv => kv.1)).Nodup →
      ((cs.foldl (fun d t => dictInsert d t.1 (g t)) d0).map (fun kv => kv.1)).Nodup := by
  induction cs with
  | nil =>
    intro d0 h
    exact h
  | cons c cst ih =>
    intro d0 h
    simp only [List.foldl_cons]
    exact ih _ (dictInsert_keys_nodup _ _ _ h)

lemma buildIndeg_keys_nodup (deps : List (String × List String)) (cs : List ClassTriple) :
    ((buildIndeg deps cs).map (fun kv => kv.1)).Nodup := by
  unfold buildIndeg
  exact foldInsert_keys_nodup (fun t => Int.ofNat (dictGetD deps t.1 []).length) cs []
    (by simp)

lemma depRev_deps_mono (ntc : List (String × ClassTriple)) (cs : List ClassTriple) :
    ∀ dr0 (a b : String), a ∈ dictGetD dr0.1 b [] →
      a ∈ dictGetD (cs.foldl (depRevStep ntc) dr0).1 b [] := by
  induction cs with
  | nil =>
    intro dr0 a b h
    exact h
  | cons c cst ih =>
    intro dr0 a b h
    simp only [List.foldl_cons]
    apply ih
    unfold depRevStep
    by_cases hc : (decide (c.2.1 ≠ "") && dictContains ntc c.2.1) = true
    · simp only [hc, if_true]
      by_cases hb : c.1 = b
      · subst hb
        rw [dictGetD_insert_self]
        exact (mem_pySetAdd_iff _ _ _).mpr (Or.inl h)
      · rw [dictGetD_insert_ne _ _ _ _ _ hb]
        exact h
    · simp only [hc, if_false]
      exact h

lemma depRev_mem_of_record (ntc : List (String × ClassTriple)) (cs : List ClassTriple) :
    ∀ dr0 (t : ClassTriple), t ∈ cs →
      (decide (t.2.1 ≠ "") && dictContains ntc t.2.1) = true →
      t.2.1 ∈ dictGetD (cs.foldl (depRevStep ntc) dr0).1 t.1 [] := by
  induction cs with
  | nil =>
    intro dr0 t h
    simp at h
  | cons c cst ih =>
    intro dr0 t hm hc
    simp only [List.foldl_cons]
    rcases List.mem_cons.mp hm with h1 | h2
    · subst h1
      apply depRev_deps_mono
      unfold depRevStep
      simp only [hc, if_true]
      rw [dictGetD_insert_self]
      exact (mem_pySetAdd_iff _ _ _).mpr (Or.inr rfl)
    · exact ih _ t h2 hc

lemma depRev_deps_empty (ntc : List (String × ClassTriple)) (cs : List ClassTriple) :
    ∀ dr0 (m : String), m ∉ clsNames cs →
      dictGetD (cs.foldl (depRevStep ntc) dr0).1 m [] = dictGetD dr0.1 m [] := by
  induction cs with
  | nil =>
    intro dr0 m _
    rfl
  | cons c cst ih =>
    intro dr0 m hm
    rw [clsNames_cons] at hm
    have hm1 : m ∉ clsNames cst := fun h => hm (List.mem_cons_of_mem _ h)
    have hm2 : c.1 ≠ m := fun h => hm (h ▸ List.mem_cons_self _ _)
    simp only [List.foldl_cons]
    rw [ih _ m hm1]
    unfold depRevStep
    by_cases hc : (decide (c.2.1 ≠ "") && dictContains ntc c.2.1) = true
    · simp only [hc, if_true]
      rw [dictGetD_insert_ne _ _ _ _ _ hm2]
    · simp only [hc, Bool.false_eq_true, if_false]

lemma depRev_nodup (ntc : List (String × ClassTriple)) (cs : List ClassTriple) :
    ∀ dr0, (∀ m, (dictGetD dr0.1 m []).Nodup) → (∀ a, (dictGetD dr0.2 a []).Nodup) →
      (∀ m, (dictGetD (cs.foldl (depRevStep ntc) dr0).1 m []).Nodup) ∧
      (∀ a, (dictGetD (cs.foldl (depRevStep ntc) dr0).2 a []).Nodup) := by
  induction cs with
  | nil =>
    intro dr0 h1 h2
    exact ⟨h1, h2⟩
  | cons c cst ih =>
    intro dr0 h1 h2
    simp only [List.foldl_cons]
    apply ih
    · intro m
      unfold depRevStep
      by_cases hc : (decide (c.2.1 ≠ "") && dictContains ntc c.2.1) = true
      · simp only [hc, if_true]
        by_cases hb : c.1 = m
        · subst hb
          rw [dictGetD_insert_self]
          exact pySetAdd_nodup _ _ (h1 _)
        · rw [dictGetD_insert_ne _ _ _ _ _ hb]
          exact h1 m
      · simp only [hc, if_false]
        exact h1 m
    · intro a
      unfold depRevStep
      by_cases hc : (decide (c.2.1 ≠ "") && dictContains ntc c.2.1) = true
      · simp only [hc, if_true]
        by_cases hb : c.2.1 = a
        · subst hb
          rw [dictGetD_insert_self]
          exact pySetAdd_nodup _ _ (h2 _)
        · rw [dictGetD_insert_ne _ _ _ _ _ hb]
          exact h2 a
      · simp only [hc, if_false]
        exact h2 a

lemma depRev_corr (ntc : List (String × ClassTriple)) (cs : List ClassTriple) :
    ∀ dr0, (∀ a b, a ∈ dictGetD dr0.1 b [] ↔ b ∈ dictGetD dr0.2 a []) →
      ∀ a b, a ∈ dictGetD (cs.foldl (depRevStep ntc) dr0).1 b []
        ↔ b ∈ dictGetD (cs.foldl (depRevStep ntc) dr0).2 a [] := by
  induction cs with
  | nil =>
    intro dr0 h
    exact h
  | cons c cst ih =>
    intro dr0 h
    simp only [List.foldl_cons]
    apply ih
    intro a b
    unfold depRevStep
    by_cases hc : (decide (c.2.1 ≠ "") && dictContains ntc c.2.1) = true
    · simp only [hc, if_true]
      by_cases hb : c.1 = b <;> by_cases ha : c.2.1 = a
      · subst hb
        subst ha
        rw [dictGetD_insert_self, dictGetD_insert_self,
          mem_pySetAdd_iff, mem_pySetAdd_iff]
        simp
      · subst hb
        rw [dictGetD_insert_self, dictGetD_insert_ne _ _ _ _ _ ha,
          mem_pySetAdd_iff]
        constructor
        · rintro (h1 | h1)
          · exact (h a c.1).mp h1
          · exact absurd h1.symm ha
        · intro h1
          exact Or.inl ((h a c.1).mpr h1)
      · subst ha
        rw [dictGetD_insert_ne _ _ _ _ _ hb, dictGetD_insert_self,
          mem_pySetAdd_iff]
        constructor
        · intro h1
          exact Or.inl ((h c.2.1 b).mp h1)
        · rintro (h1 | h1)
          · exact (h c.2.1 b).mpr h1
          · exact absurd h1.symm hb
      · rw [dictGetD_insert_ne _ _ _ _ _ hb, dictGetD_insert_ne _ _ _ _ _ ha]
        exact h a b
    · simp only [hc, Bool.false_eq_true, if_false]
      exact h a b

/- ==================================================================
   Counting lemmas and the decrement loop of order_classes. -/

lemma countIn_cons (a : String) (t D : List String) :
    countIn (a :: t) D = (if a ∈ D then 1 else 0) + countIn t D := by
  unfold countIn
  rw [List.filter_cons]
  by_cases hD : a ∈ D <;> simp [hD] <;> omega

lemma countIn_le_length (l D : List String) : countIn l D ≤ l.length := by
  unfold countIn
  exact List.length_filter_le _ l

lemma countIn_append_singleton (l D : List String) (n : String)
    (hl : l.Nodup) (hn : n ∉ D) :
    countIn l (D ++ [n]) = countIn l D + (if n ∈ l then 1 else 0) := by
  induction l with
  | nil => simp [countIn]
  | cons a t ih =>
    obtain ⟨ha, ht⟩ := List.nodup_cons.mp hl
    rw [countIn_cons, countIn_cons, ih ht]
    by_cases hae : a = n
    · subst hae
      have e1 : a ∈ D ++ [a] := by simp
      simp [e1, hn, ha, List.mem_cons]
      omega
    · have e1 : (a ∈ D ++ [n]) ↔ (a ∈ D) := by
        simp [List.mem_append, hae]
      have e2 : (n ∈ a :: t) ↔ (n ∈ t) := by
        rw [List.mem_cons]
        constructor
        · rintro (h | h)
          · exact absurd h.symm hae
          · exact h
        · exact Or.inr
      simp only [e1, e2]
      omega

lemma countIn_full (l D : List String) (hl : l.Nodup)
    (h : countIn l D = l.length) : ∀ y ∈ l, y ∈ D := by
  induction l with
  | nil => simp
  | cons a t ih =>
    obtain ⟨_, ht⟩ := List.nodup_cons.mp hl
    rw [countIn_cons] at h
    have hle := countIn_le_length t D
    by_cases hD : a ∈ D
    · have h2 : countIn t D = t.length := by
        simp [hD] at h
        omega
      intro y hy
      rcases List.mem_cons.mp hy with hy | hy
      · exact hy ▸ hD
      · exact ih ht h2 y hy
    · exfalso
      simp [hD, List.length_cons] at h
      omega

lemma decFold_spec (L : List String) :
    ∀ (indeg : List (String × Int)) (q0 : List String), L.Nodup →
      (∀ m, dictGetD ((L.foldl decStep (indeg, q0)).1) m 0
          = dictGetD indeg m 0 - (if m ∈ L then 1 else 0)) ∧
      (L.foldl decStep (indeg, q0)).2
        = q0 ++ L.filter (fun m => dictGetD indeg m 0 == 1) := by
  induction L with
  | nil =>
    intro indeg q0 _
    constructor
    · intro m
      simp
    · simp
  | cons a T ih =>
    intro indeg q0 hn
    obtain ⟨haT, hT⟩ := List.nodup_cons.mp hn
    simp only [List.foldl_cons]
    have hstep : decStep (indeg, q0) a
        = (dictInsert indeg a (dictGetD indeg a 0 - 1),
           if dictGetD indeg a 0 - 1 = 0 then q0 ++ [a] else q0) := by
      unfold decStep
      by_cases hz : dictGetD indeg a 0 - 1 = 0 <;> simp [hz]
    rw [hstep]
    obtain ⟨ihd, ihq⟩ :=
      ih (dictInsert indeg a (dictGetD indeg a 0 - 1))
        (if dictGetD indeg a 0 - 1 = 0 then q0 ++ [a] else q0) hT
    constructor
    · intro m
      rw [ihd m]
      by_cases ham : a = m
      · subst ham
        rw [dictGetD_insert_self]
        have e1 : a ∉ T := haT
        have e2 : a ∈ a :: T := List.mem_cons_self _ _
        rw [if_neg e1, if_pos e2]
        omega
      · rw [dictGetD_insert_ne _ _ _ _ _ ham]
        have e1 : (m ∈ a :: T) ↔ (m ∈ T) := by
          rw [List.mem_cons]
          constructor
          · rintro (h | h)
            · exact absurd h.symm ham
            · exact h
          · exact Or.inr
        simp only [e1]
    · rw [ihq]
      have hfT : T.filter
            (fun m => dictGetD (dictInsert indeg a (dictGetD indeg a 0 - 1)) m 0 == 1)
          = T.filter (fun m => dictGetD indeg m 0 == 1) := by
        apply List.filter_congr
        intro m hm
        have hne : a ≠ m := fun h => haT (h ▸ hm)
        rw [dictGetD_insert_ne _ _ _ _ _ hne]
      rw [hfT]
      have hfa : List.filter (fun m => dictGetD indeg m 0 == 1) (a :: T)
          = (if dictGetD indeg a 0 = 1 then [a] else [])
            ++ T.filter (fun m => dictGetD indeg m 0 == 1) := by
        rw [List.filter_cons]
        by_cases hz : dictGetD indeg a 0 = 1
        · simp [hz]
        · have : (dictGetD indeg a 0 == 1) = false := by
            simp [hz]
          simp [this, hz]
      rw [hfa]
      have hiff : (dictGetD indeg a 0 - 1 = 0) ↔ (dictGetD indeg a 0 = 1) := by omega
      by_cases hz : dictGetD indeg a 0 - 1 = 0
      · have hz2 := hiff.mp hz
        simp [hz, hz2]
      · have hz2 : ¬(dictGetD indeg a 0 = 1) := fun hh => hz (hiff.mpr hh)
        simp [hz, hz2]

/- ==================================================================
   The while loop of order_classes: invariant induction.  The invariant
   carries (i) duplicate-freedom of the emitted names together with the
   queue, (ii) nonpositive in-degree of every emitted or queued name,
   (iii) that a queued name's whole dependency set has been emitted,
   (iv) the in-degree accounting equation, and (v) under the dependency
   hypothesis, that every emitted parent annotation points backwards. -/

lemma kahnAux_main
    (ntc : List (String × ClassTriple)) (rev deps : List (String × List String))
    (Hcorr : ∀ a b, a ∈ dictGetD deps b [] ↔ b ∈ dictGetD rev a [])
    (Hdnd : ∀ m, (dictGetD deps m []).Nodup)
    (Hrnd : ∀ a, (dictGetD rev a []).Nodup) :
    ∀ (fuel : Nat) (queue : List String) (indeg : List (String × Int))
      (acc : List OrdTriple),
      (ordNames acc ++ queue).Nodup →
      (∀ x ∈ ordNames acc ++ queue, dictGetD indeg x 0 ≤ 0) →
      (∀ x ∈ queue, ∀ y ∈ dictGetD deps x [], y ∈ ordNames acc) →
      (∀ m, dictGetD indeg m 0
          = ((dictGetD deps m []).length : Int)
            - (countIn (dictGetD deps m []) (ordNames acc) : Int)) →
      ((∀ n t, dictGet ntc n = some t → dictContains ntc t.2.1 = true →
          t.2.1 ∈ dictGetD deps n []) → parentEarlier acc) →
      (ordNames (kahnAux ntc rev fuel queue indeg acc)).Nodup ∧
      ((∀ n t, dictGet ntc n = some t → dictContains ntc t.2.1 = true →
          t.2.1 ∈ dictGetD deps n []) →
        parentEarlier (kahnAux ntc rev fuel queue indeg acc)) := by
  intro fuel
  induction fuel with
  | zero =>
    intro queue indeg acc h2 _ _ _ h1
    simp only [kahnAux]
    exact ⟨h2.of_append_left, h1⟩
  | succ fuel ih =>
    intro queue indeg acc h2 h3 h4 h5 h1
    cases queue with
    | nil =>
      simp only [kahnAux]
      exact ⟨h2.of_append_left, h1⟩
    | cons n qs =>
      simp only [kahnAux]
      cases hget : dictGet ntc n with
      | none =>
        exact ⟨h2.of_append_left, h1⟩
      | some t =>
        simp only []
        obtain ⟨hd, hq⟩ := decFold_spec (dictGetD rev n []) indeg [] (Hrnd n)
        rw [List.nil_append] at hq
        -- assembled shorthand
        have hnD : n ∉ ordNames acc := by
          have := List.disjoint_of_nodup_append h2
          intro hx
          exact this hx (List.mem_cons_self _ _)
        -- the filtered additions to the queue
        have fq1 : ∀ m ∈ ((dictGetD rev n []).foldl decStep (indeg, [])).2,
            dictGetD indeg m 0 = 1 := by
          rw [hq]
          intro m hm
          have := List.of_mem_filter hm
          exact beq_iff_eq.mp this
        have fq2 : ∀ m ∈ ((dictGetD rev n []).foldl decStep (indeg, [])).2,
            m ∈ dictGetD rev n [] := by
          rw [hq]
          exact fun m hm => List.mem_of_mem_filter hm
        have fq3 : (((dictGetD rev n []).foldl decStep (indeg, [])).2).Nodup := by
          rw [hq]
          exact (Hrnd n).filter _
        -- the new accounting equation
        have h5' : ∀ m, dictGetD (((dictGetD rev n []).foldl decStep (indeg, [])).1) m 0
            = ((dictGetD deps m []).length : Int)
              - (countIn (dictGetD deps m [])
                  (ordNames (acc ++ [(n, if dictContains ntc t.2.1 = true
                    then some t.2.1 else none, t.2.2)])) : Int) := by
          intro m
          have hD' : ordNames (acc ++ [(n, if dictContains ntc t.2.1 = true
              then some t.2.1 else none, t.2.2)]) = ordNames acc ++ [n] := by
            simp [ordNames]
          rw [hD', hd m, h5 m,
            countIn_append_singleton _ _ _ (Hdnd m) hnD]
          have hcm : (m ∈ dictGetD rev n []) ↔ (n ∈ dictGetD deps m []) :=
            (Hcorr n m).symm
          by_cases hmem : n ∈ dictGetD deps m []
          · rw [if_pos hmem, if_pos (hcm.mpr hmem)]
            push_cast
            omega
          · rw [if_neg hmem, if_neg (fun hx => hmem (hcm.mp hx))]
            push_cast
            omega
        -- duplicate-freedom of the new state
        have h2' : (ordNames (acc ++ [(n, if dictContains ntc t.2.1 = true
            then some t.2.1 else none, t.2.2)])
            ++ (qs ++ ((dictGetD rev n []).foldl decStep (indeg, [])).2)).Nodup := by
          have hre : ordNames (acc ++ [(n, if dictContains ntc t.2.1 = true
              then some t.2.1 else none, t.2.2)])
              ++ (qs ++ ((dictGetD rev n []).foldl decStep (indeg, [])).2)
              = (ordNames acc ++ n :: qs)
                ++ ((dictGetD rev n []).foldl decStep (indeg, [])).2 := by
            simp [ordNames]
          rw [hre, List.nodup_append]
          refine ⟨h2, fq3, ?_⟩
          intro x hx1 hx2
          have hle := h3 x hx1
          have heq := fq1 x hx2
          omega
        -- nonpositivity in the new state
        have h3' : ∀ x ∈ ordNames (acc ++ [(n, if dictContains ntc t.2.1 = true
            then some t.2.1 else none, t.2.2)])
            ++ (qs ++ ((dictGetD rev n []).foldl decStep (indeg, [])).2),
            dictGetD (((dictGetD rev n []).foldl decStep (indeg, [])).1) x 0 ≤ 0 := by
          intro x hx
          rw [hd x]
          have hre : ordNames (acc ++ [(n, if dictContains ntc t.2.1 = true
              then some t.2.1 else none, t.2.2)]) = ordNames acc ++ [n] := by
            simp [ordNames]
          rw [hre] at hx
          simp only [List.mem_append, List.mem_singleton] at hx
          rcases hx with ((hx | hx) | (hx | hx))
          · have := h3 x (List.mem_append_left _ hx)
            by_cases hm : x ∈ dictGetD rev n [] <;> simp [hm] <;> omega
          · rw [hx]
            have := h3 n (List.mem_append_right _ (List.mem_cons_self _ _))
            by_cases hm : n ∈ dictGetD rev n [] <;> simp [hm] <;> omega
          · have := h3 x (List.mem_append_right _ (List.mem_cons_of_mem _ hx))
            by_cases hm : x ∈ dictGetD rev n [] <;> simp [hm] <;> omega
          · have h1x := fq1 x hx
            have h2x := fq2 x hx
            rw [if_pos h2x]
            omega
        -- queued dependency closure in the new state
        have h4' : ∀ x ∈ qs ++ ((dictGetD rev n []).foldl decStep (indeg, [])).2,
            ∀ y ∈ dictGetD deps x [],
              y ∈ ordNames (acc ++ [(n, if dictContains ntc t.2.1 = true
                then some t.2.1 else none, t.2.2)]) := by
          intro x hx y hy
          have hre : ordNames (acc ++ [(n, if dictContains ntc t.2.1 = true
              then some t.2.1 else none, t.2.2)]) = ordNames acc ++ [n] := by
            simp [ordNames]
          rw [hre]
          rcases List.mem_append.mp hx with hx | hx
          · exact List.mem_append_left _ (h4 x (List.mem_cons_of_mem _ hx) y hy)
          · have hz : dictGetD (((dictGetD rev n []).foldl decStep (indeg, [])).1) x 0 = 0 := by
              rw [hd x, if_pos (fq2 x hx), fq1 x hx]
              omega
            rw [h5' x, hre] at hz
            have hlen : countIn (dictGetD deps x []) (ordNames acc ++ [n])
                = (dictGetD deps x []).length := by
              have hle := countIn_le_length (dictGetD deps x []) (ordNames acc ++ [n])
              omega
            exact countIn_full _ _ (Hdnd x) hlen y hy
        -- backwards parent pointers in the new state
        have h1' : (∀ n0 t0, dictGet ntc n0 = some t0 →
            dictContains ntc t0.2.1 = true → t0.2.1 ∈ dictGetD deps n0 []) →
            parentEarlier (acc ++ [(n, if dictContains ntc t.2.1 = true
              then some t.2.1 else none, t.2.2)]) := by
          intro H5
          have hpe := h1 H5
          intro i t' hget' p hp
          by_cases hi : i < acc.length
          · rw [List.get?_append hi] at hget'
            obtain ⟨j, t'', hj, hgj, hname⟩ := hpe i t' hget' p hp
            refine ⟨j, t'', hj, ?_, hname⟩
            rw [List.get?_append (lt_trans hj hi)]
            exact hgj
          · have hlen : i < acc.length + 1 := by
              have := List.get?_eq_some.mp hget'
              simpa using this.1
            have hie : i = acc.length := by omega
            subst hie
            rw [List.get?_append_right (le_refl _)] at hget'
            simp at hget'
            have hpp : dictContains ntc t.2.1 = true ∧ p = t.2.1 := by
              rw [← hget'] at hp
              by_cases hc : dictContains ntc t.2.1 = true
              · rw [if_pos hc] at hp
                exact ⟨hc, Option.some_injective _ hp.symm⟩
              · rw [if_neg hc] at hp
                simp at hp
            have hdep : t.2.1 ∈ dictGetD deps n [] := H5 n t hget hpp.1
            have hmemD : t.2.1 ∈ ordNames acc :=
              h4 n (List.mem_cons_self _ _) t.2.1 hdep
            obtain ⟨t'', ht''⟩ := List.mem_map.mp hmemD
            obtain ⟨j, hj⟩ := List.mem_iff_get?.mp ht''.1
            have hjlt : j < acc.length := by
              have := List.get?_eq_some.mp hj
              exact this.1
            refine ⟨j, t'', hjlt, ?_, hpp.2 ▸ ht''.2⟩
            rw [List.get?_append hjlt]
            exact hj
        exact ih (qs ++ ((dictGetD rev n []).foldl decStep (indeg, [])).2)
          (((dictGetD rev n []).foldl decStep (indeg, [])).1)
          (acc ++ [(n, if dictContains ntc t.2.1 = true then some t.2.1 else none, t.2.2)])
          h2' h3' h4' h5' h1'

lemma countIn_nil (l : List String) : countIn l [] = 0 := by
  unfold countIn
  simp

lemma depRev_base_corr (ntc : List (String × ClassTriple)) (cs : List ClassTriple) :
    ∀ a b, a ∈ dictGetD (buildDepRev ntc cs).1 b []
      ↔ b ∈ dictGetD (buildDepRev ntc cs).2 a [] := by
  unfold buildDepRev
  exact depRev_corr ntc cs ([], []) (by intro a b; simp [dictGetD, dictGet])

lemma depRev_base_nodup (ntc : List (String × ClassTriple)) (cs : List ClassTriple) :
    (∀ m, (dictGetD (buildDepRev ntc cs).1 m []).Nodup) ∧
    (∀ a, (dictGetD (buildDepRev ntc cs).2 a []).Nodup) := by
  unfold buildDepRev
  exact depRev_nodup ntc cs ([], [])
    (by intro m; simp [dictGetD, dictGet]) (by intro a; simp [dictGetD, dictGet])

lemma depRev_base_empty (ntc : List (String × ClassTriple)) (cs : List ClassTriple)
    (m : String) (hm : m ∉ clsNames cs) : dictGetD (buildDepRev ntc cs).1 m [] = [] := by
  unfold buildDepRev
  rw [depRev_deps_empty ntc cs ([], []) m hm]
  simp [dictGetD, dictGet]

lemma depRev_base_mem (ntc : List (String × ClassTriple)) (cs : List ClassTriple)
    (t : ClassTriple) (ht : t ∈ cs)
    (hc : (decide (t.2.1 ≠ "") && dictContains ntc t.2.1) = true) :
    t.2.1 ∈ dictGetD (buildDepRev ntc cs).1 t.1 [] := by
  unfold buildDepRev
  exact depRev_mem_of_record ntc cs ([], []) t ht hc

lemma intCast_ofNat (n : Nat) : Int.ofNat n = (n : Int) := rfl

/-- Main structural theorem about order_classes: the emitted names are
duplicate-free, and (for records with nonempty names) every surviving
parent annotation points at a strictly earlier entry. -/
lemma order_classes_main (cs : List ClassTriple) :
    (ordNames (order_classes cs)).Nodup ∧
    (NamesNonempty cs → parentEarlier (order_classes cs)) := by
  obtain ⟨Hnd1, Hnd2⟩ := depRev_base_nodup (buildNtc cs) cs
  have hkeys := buildIndeg_keys_nodup (buildDepRev (buildNtc cs) cs).1 cs
  -- initial queue facts
  have hq0nd : ((((buildIndeg (buildDepRev (buildNtc cs) cs).1 cs).filter
      (fun kv => kv.2 == 0)).map (fun kv => kv.1)).Nodup) := by
    apply List.Nodup.sublist _ hkeys
    exact List.Sublist.map _ (List.filter_sublist _)
  have hq0val : ∀ x ∈ ((buildIndeg (buildDepRev (buildNtc cs) cs).1 cs).filter
      (fun kv => kv.2 == 0)).map (fun kv => kv.1),
      dictGetD (buildIndeg (buildDepRev (buildNtc cs) cs).1 cs) x 0 = 0 := by
    intro x hx
    obtain ⟨kv, hkv, hkvx⟩ := List.mem_map.mp hx
    have hmem := List.mem_of_mem_filter hkv
    have hval : kv.2 = 0 := beq_iff_eq.mp (List.mem_filter.mp hkv).2
    have hget : dictGet (buildIndeg (buildDepRev (buildNtc cs) cs).1 cs) x = some kv.2 := by
      apply dictGet_of_mem_nodup _ _ _ hkeys
      have : kv = (x, kv.2) := by
        rw [Prod.ext_iff]
        exact ⟨hkvx, rfl⟩
      exact this ▸ hmem
    simp [dictGetD, hget, hval]
  have hdeps0 : ∀ x, dictGetD (buildIndeg (buildDepRev (buildNtc cs) cs).1 cs) x 0 = 0 →
      dictGetD (buildDepRev (buildNtc cs) cs).1 x [] = [] := by
    intro x hx
    by_cases hmem : x ∈ clsNames cs
    · rw [dictGetD, buildIndeg_get, if_pos hmem] at hx
      simp at hx
      exact List.length_eq_zero.mp (by simpa using hx)
    · exact depRev_base_empty _ cs x hmem
  have inv5 : ∀ m, dictGetD (buildIndeg (buildDepRev (buildNtc cs) cs).1 cs) m 0
      = ((dictGetD (buildDepRev (buildNtc cs) cs).1 m []).length : Int)
        - (countIn (dictGetD (buildDepRev (buildNtc cs) cs).1 m []) (ordNames []) : Int) := by
    intro m
    have : ordNames ([] : List OrdTriple) = [] := rfl
    rw [this, countIn_nil]
    by_cases hmem : m ∈ clsNames cs
    · rw [dictGetD, buildIndeg_get, if_pos hmem]
      simp [intCast_ofNat]
    · rw [dictGetD, buildIndeg_get, if_neg hmem, depRev_base_empty _ cs m hmem]
      simp
  have hmain := kahnAux_main (buildNtc cs) (buildDepRev (buildNtc cs) cs).2
    (buildDepRev (buildNtc cs) cs).1 (depRev_base_corr (buildNtc cs) cs) Hnd1 Hnd2
    ((((buildIndeg (buildDepRev (buildNtc cs) cs).1 cs).filter
      (fun kv => kv.2 == 0)).map (fun kv => kv.1)).length + cs.length + 1)
    (((buildIndeg (buildDepRev (buildNtc cs) cs).1 cs).filter
      (fun kv => kv.2 == 0)).map (fun kv => kv.1))
    (buildIndeg (buildDepRev (buildNtc cs) cs).1 cs) []
    (by simpa using hq0nd)
    (by
      intro x hx
      simp only [ordNames, List.map_nil, List.nil_append] at hx
      rw [hq0val x hx])
    (by
      intro x hx y hy
      rw [hdeps0 x (hq0val x (by simpa using hx))] at hy
      simp at hy)
    inv5
    (by
      intro _
      intro i t hgt p hp
      simp at hgt)
  constructor
  · exact hmain.1
  · intro hNN
    apply hmain.2
    intro n t hget hcont
    obtain ⟨htm, htn⟩ := buildNtc_mem cs n t hget
    have hpn : t.2.1 ∈ clsNames cs := buildNtc_contains_mem cs t.2.1 hcont
    have hpne : t.2.1 ≠ "" := by
      obtain ⟨r, hr, hrn⟩ := List.mem_map.mp hpn
      intro he
      exact hNN r hr (by rw [hrn, he])
    have hcond : (decide (t.2.1 ≠ "") && dictContains (buildNtc cs) t.2.1) = true := by
      simp [hpne, hcont]
    have := depRev_base_mem (buildNtc cs) cs t htm hcond
    rw [htn] at this
    exact this

/- ==================================================================
   compute_class_sizes: stability and per-class values. -/

lemma sizeFold_stable (l : List OrdTriple) :
    ∀ (s : List (String × Nat)) (n : String), n ∉ ordNames l →
      dictGet (l.foldl sizeStep s) n = dictGet s n := by
  induction l with
  | nil =>
    intro s n _
    rfl
  | cons t lt ih =>
    intro s n hn
    have hn1 : t.1 ≠ n := by
      intro h
      exact hn (by rw [ordNames, List.map_cons, ← h]; exact List.mem_cons_self _ _)
    have hn2 : n ∉ ordNames lt := by
      intro h
      exact hn (by rw [ordNames, List.map_cons]; exact List.mem_cons_of_mem _ h)
    rw [List.foldl_cons, ih _ n hn2]
    unfold sizeStep
    exact dictGet_insert_ne _ _ _ _ hn1

lemma sizeFold_preserve (l : List OrdTriple) :
    ∀ (s : List (String × Nat)) (n : String), (dictGet s n).isSome →
      (dictGet (l.foldl sizeStep s) n).isSome := by
  induction l with
  | nil =>
    intro s n h
    exact h
  | cons t lt ih =>
    intro s n h
    rw [List.foldl_cons]
    apply ih
    unfold sizeStep
    by_cases hk : t.1 = n
    · subst hk
      rw [dictGet_insert_self]
      rfl
    · rw [dictGet_insert_ne _ _ _ _ hk]
      exact h

lemma sizeFold_mem_isSome (l : List OrdTriple) :
    ∀ (s : List (String × Nat)) (n : String), n ∈ ordNames l →
      (dictGet (l.foldl sizeStep s) n).isSome := by
  induction l with
  | nil =>
    intro s n h
    simp [ordNames] at h
  | cons t lt ih =>
    intro s n hn
    rw [List.foldl_cons]
    rw [ordNames, List.map_cons] at hn
    rcases List.mem_cons.mp hn with hn | hn
    · apply sizeFold_preserve
      unfold sizeStep
      rw [← hn, dictGet_insert_self]
      rfl
    · exact ih _ n hn

lemma compute_value_at (l1 : List OrdTriple) (t : OrdTriple) (l2 : List OrdTriple)
    (hnot : t.1 ∉ ordNames l2) :
    dictGet (compute_class_sizes (l1 ++ t :: l2)) t.1
      = some (max (classCursor t.2.2)
          (match t.2.1 with
           | some p => dictGetD (compute_class_sizes l1) p 0
           | none => 0)) := by
  unfold compute_class_sizes
  rw [List.foldl_append, List.foldl_cons, sizeFold_stable l2 _ _ hnot]
  unfold sizeStep
  exact dictGet_insert_self _ _ _

lemma compute_prefix_stable (l1 l2 : List OrdTriple) (p : String)
    (hp : p ∉ ordNames l2) :
    dictGet (compute_class_sizes (l1 ++ l2)) p = dictGet (compute_class_sizes l1) p := by
  unfold compute_class_sizes
  rw [List.foldl_append]
  exact sizeFold_stable l2 _ p hp

/-- Per-class value of the size table on the ordered pipeline output:
the class maps to the maximum of its maximal field end offset and a
parent share that is zero for a parentless class and the parent's own
table entry otherwise. -/
lemma sizes_value (cs : List ClassTriple) (hNN : NamesNonempty cs)
    (i : Nat) (t : OrdTriple) (hget : (order_classes cs).get? i = some t) :
    ∃ ps, dictGet (compute_class_sizes (order_classes cs)) t.1
        = some (max (maxEnds t.2.2) ps) ∧
      (t.2.1 = none → ps = 0) ∧
      (∀ p, t.2.1 = some p →
        dictGet (compute_class_sizes (order_classes cs)) p = some ps) := by
  obtain ⟨hnd, hpe0⟩ := order_classes_main cs
  have hpe := hpe0 hNN
  have hilen : i < (order_classes cs).length := (List.get?_eq_some.mp hget).1
  have hgeti : (order_classes cs)[i] = t := by
    have he := List.get?_eq_getElem? (order_classes cs) i
    rw [he] at hget
    exact (List.getElem?_eq_some.mp hget).2
  have hdrop : (order_classes cs).drop i = t :: (order_classes cs).drop (i + 1) := by
    rw [List.drop_eq_getElem_cons hilen, hgeti]
  have hsplit : order_classes cs
      = (order_classes cs).take i ++ t :: (order_classes cs).drop (i + 1) := by
    conv_lhs => rw [← List.take_append_drop i (order_classes cs)]
    rw [hdrop]
  have hnamesplit : ordNames (order_classes cs)
      = ordNames ((order_classes cs).take i)
        ++ t.1 :: ordNames ((order_classes cs).drop (i + 1)) := by
    conv_lhs => rw [hsplit]
    simp [ordNames]
  have htnot : t.1 ∉ ordNames ((order_classes cs).drop (i + 1)) := by
    have hnd2 := hnamesplit ▸ hnd
    exact (List.nodup_cons.mp hnd2.of_append_right).1
  have hval := compute_value_at ((order_classes cs).take i) t
    ((order_classes cs).drop (i + 1)) htnot
  rw [← hsplit, classCursor_eq_maxEnds] at hval
  refine ⟨(match t.2.1 with
    | some p => dictGetD (compute_class_sizes ((order_classes cs).take i)) p 0
    | none => 0), hval, ?_, ?_⟩
  · intro hnone
    rw [hnone]
  · intro p hp
    obtain ⟨j, t', hj, hgj, hname⟩ := hpe i t hget p hp
    have hjtake : ((order_classes cs).take i).get? j = some t' := by
      rw [get?_take_of_lt _ _ _ hj]
      exact hgj
    have hpmem : p ∈ ordNames ((order_classes cs).take i) := by
      rw [← hname]
      exact List.mem_map_of_mem _ (List.get?_mem hjtake)
    have hpnotdrop : p ∉ ordNames ((order_classes cs).drop i) := by
      have hfull : ordNames (order_classes cs)
          = ordNames ((order_classes cs).take i)
            ++ ordNames ((order_classes cs).drop i) := by
        conv_lhs => rw [← List.take_append_drop i (order_classes cs)]
        simp [ordNames]
      have hd := hfull ▸ hnd
      exact fun hmem => (List.disjoint_of_nodup_append hd) hpmem hmem
    have hstable : dictGet (compute_class_sizes (order_classes cs)) p
        = dictGet (compute_class_sizes ((order_classes cs).take i)) p := by
      conv_lhs => rw [← List.take_append_drop i (order_classes cs)]
      exact compute_prefix_stable _ _ p hpnotdrop
    have hsome : (dictGet (compute_class_sizes ((order_classes cs).take i)) p).isSome := by
      unfold compute_class_sizes
      exact sizeFold_mem_isSome _ _ p hpmem
    obtain ⟨v, hv⟩ := Option.isSome_iff_exists.mp hsome
    rw [hp, hstable, hv]
    simp [dictGetD, hv]

/-- C5 (amended form).  The extractor keeps both same-named records as
separate ClassRecords, but the Dependency Orderer does not treat them
independently: it keys its working dicts by class name, so its output
contains each distinct name at most once (the duplicate-free name
property below), and a duplicated input name yields a single ordered
record. -/
theorem claim_C5_dedup :
    parse_classes tDup = [("A", "P", []), ("A", "Q", [])] ∧
    ∀ cs : List ClassTriple, (ordNames (order_classes cs)).Nodup :=
  ⟨by decide, fun cs => (order_classes_main cs).1⟩

/-- C6.  Every ordered record that kept a parent annotation names a
class with a computed size no larger than its own, and its full
declaration header textually inherits from that parent and appears in
the emitted lines. -/
theorem claim_C6_inheritance (cs : List ClassTriple) (hNN : NamesNonempty cs)
    (i : Nat) (t : OrdTriple) (hget : (order_classes cs).get? i = some t)
    (p : String) (hp : t.2.1 = some p) :
    ∃ sn sp, dictGet (compute_class_sizes (order_classes cs)) t.1 = some sn ∧
      dictGet (compute_class_sizes (order_classes cs)) p = some sp ∧
      sp ≤ sn ∧
      classHeader t = "class " ++ t.1 ++ (" : public " ++ p) ++ "\n\x7b\npublic:\n" ∧
      classHeader t ∈ convert_from_classes cs := by
  obtain ⟨ps, hv, _, hps⟩ := sizes_value cs hNN i t hget
  refine ⟨max (maxEnds t.2.2) ps, ps, hv, hps p hp, le_max_right _ _, ?_, ?_⟩
  · unfold classHeader
    rw [hp]
  · have hmem : t ∈ order_classes cs := List.get?_mem hget
    have h1 : classSection (compute_class_sizes (order_classes cs)) t
        ∈ (order_classes cs).map (classSection (compute_class_sizes (order_classes cs))) :=
      List.mem_map_of_mem _ hmem
    have h2 : classHeader t ∈ classSection (compute_class_sizes (order_classes cs)) t := by
      unfold classSection
      exact List.mem_cons_self _ _
    have h3 : classHeader t
        ∈ ((order_classes cs).map
            (classSection (compute_class_sizes (order_classes cs)))).flatten :=
      List.mem_flatten.mpr ⟨_, h1, h2⟩
    unfold convert_from_classes
    exact List.mem_append_right _ h3

/-- C6 witness at a concrete two-class input with a resolvable parent. -/
theorem claim_C6_witness :
    ∃ sn sp,
      dictGet (compute_class_sizes (order_classes csPair)) "CChild" = some sn ∧
      dictGet (compute_class_sizes (order_classes csPair)) "CBase" = some sp ∧
      sp ≤ sn ∧
      classHeader ("CChild", some "CBase", [fieldLineB])
        = "class " ++ "CChild" ++ (" : public " ++ "CBase") ++ "\n\x7b\npublic:\n" ∧
      classHeader ("CChild", some "CBase", [fieldLineB]) ∈ convert_from_classes csPair :=
  claim_C6_inheritance csPair (by unfold NamesNonempty; decide) 1
    ("CChild", some "CBase", [fieldLineB]) (by decide) "CBase" rfl

/- ==================================================================
   The emitter cursor never exceeds the size-table entry. -/

lemma emitStep_snd (st : List Member × Nat) (line : String) :
    (emitStep st line).2
      = match offsetSearch line with
        | none => st.2
        | some g => if g.2.1 < st.2 then st.2
            else g.2.1 + resolved_size (normalize_type g.2.2) := by
  unfold emitStep
  cases h : offsetSearch line with
  | none => rfl
  | some g =>
    by_cases hlt : g.2.1 < st.2
    · simp [hlt]
    · simp only [hlt, if_false]
      cases hn : normalize_type g.2.2 <;> simp [resolved_size, hn]

lemma emitFold_le (fields : List String) :
    ∀ st : List Member × Nat, (fields.foldl emitStep st).2 ≤ max st.2 (maxEnds fields) := by
  induction fields with
  | nil =>
    intro st
    simp [maxEnds]
  | cons l fs ih =>
    intro st
    rw [List.foldl_cons]
    cases h : offsetSearch l with
    | none =>
      have hstep : emitStep st l = st := by
        unfold emitStep
        rw [h]
      have hme : maxEnds (l :: fs) = maxEnds fs := by
        simp [maxEnds, h]
      rw [hstep, hme]
      exact ih st
    | some g =>
      have hme : maxEnds (l :: fs)
          = max (g.2.1 + resolved_size (normalize_type g.2.2)) (maxEnds fs) := by
        simp [maxEnds, h]
      rw [hme]
      by_cases hlt : g.2.1 < st.2
      · have hstep : emitStep st l = st := by
          unfold emitStep
          rw [h]
          simp [hlt]
        rw [hstep]
        calc (fs.foldl emitStep st).2 ≤ max st.2 (maxEnds fs) := ih st
          _ ≤ max st.2 (max (g.2.1 + resolved_size (normalize_type g.2.2)) (maxEnds fs)) :=
            max_le_max (le_refl _) (le_max_right _ _)
      · have hsnd : (emitStep st l).2 = g.2.1 + resolved_size (normalize_type g.2.2) := by
          rw [emitStep_snd, h]
          simp [hlt]
        calc (fs.foldl emitStep (emitStep st l)).2
            ≤ max (emitStep st l).2 (maxEnds fs) := ih (emitStep st l)
          _ = max (g.2.1 + resolved_size (normalize_type g.2.2)) (maxEnds fs) := by
            rw [hsnd]
          _ ≤ max st.2 (max (g.2.1 + resolved_size (normalize_type g.2.2)) (maxEnds fs)) :=
            le_max_right _ _

/-- C2 (amended form).  The emitter drops exactly the fields whose
offset lies strictly below its cursor (first part), while
compute_class_sizes drops none; so instead of agreement, the emitter's
final cursor for a class is bounded by the size-table entry: it never
exceeds it, but can fall short (second part; the counterexample shows
strict inequality). -/
theorem claim_C2_emitter_vs_sizes :
    (∀ (st : List Member × Nat) (line : String) (vn : String) (off : Nat) (cty : String),
        offsetSearch line = some (vn, off, cty) → off < st.2 → emitStep st line = st) ∧
    (∀ (cs : List ClassTriple), NamesNonempty cs →
      ∀ (i : Nat) (t : OrdTriple), (order_classes cs).get? i = some t →
        (emitFields (match t.2.1 with
            | some p => dictGetD (compute_class_sizes (order_classes cs)) p 0
            | none => 0) t.2.2).2
          ≤ dictGetD (compute_class_sizes (order_classes cs)) t.1 0) := by
  constructor
  · intro st line vn off cty h hlt
    unfold emitStep
    rw [h]
    simp [hlt]
  · intro cs hNN i t hget
    obtain ⟨ps, hv, hnone, hsome⟩ := sizes_value cs hNN i t hget
    have hstart : (match t.2.1 with
        | some p => dictGetD (compute_class_sizes (order_classes cs)) p 0
        | none => 0) = ps := by
      cases hp : t.2.1 with
      | none => exact (hnone hp).symm
      | some p => simp [dictGetD, hsome p hp]
    rw [hstart]
    unfold emitFields
    rw [dictGetD, hv]
    simp only [Option.getD_some]
    calc (t.2.2.foldl emitStep ([], ps)).2 ≤ max ps (maxEnds t.2.2) := emitFold_le t.2.2 _
      _ = max (maxEnds t.2.2) ps := max_comm _ _
      _ ≤ max (maxEnds t.2.2) ps := le_refl _

/-- C2 witness: the drop rule fires on a concrete overlapping line, and
the emitter cursor bound holds at the concrete two-class input. -/
theorem claim_C2_witness :
    emitStep ([], 8) fieldLineB = ([], 8) ∧
    (emitFields (dictGetD (compute_class_sizes (order_classes csPair)) "CBase" 0)
        [fieldLineB]).2
      ≤ dictGetD (compute_class_sizes (order_classes csPair)) "CChild" 0 := by
  constructor
  · exact claim_C2_emitter_vs_sizes.1 ([], 8) fieldLineB "b" 4 "int64" (by decide) (by decide)
  · exact claim_C2_emitter_vs_sizes.2 csPair (by unfold NamesNonempty; decide) 1
      ("CChild", some "CBase", [fieldLineB]) (by decide)

/-- C2 (counterexample to the claim as stated).  On a class whose
second eight-byte field at offset four overlaps the first eight-byte
field at offset zero, the emitter drops the second field (one emitted
member, final cursor eight) while the size table records twelve: the
two passes do not walk identically and the size table and the emitted
layout disagree. -/
theorem claim_C2_counterexample :
    emitFields 0 [fieldLineA, fieldLineB]
      = ([Member.scalarField "int64_t" "a" 0 "int64"], 8) ∧
    dictGet (compute_class_sizes [("A", none, [fieldLineA, fieldLineB])]) "A" = some 12 ∧
    (8 : Nat) ≠ 12 := by
  refine ⟨by decide, by decide, by decide⟩

/- ==================================================================
   Positions of section heads inside the flattened output. -/

lemma flatten_head_ex {α : Type} (ss : List (List α)) :
    ∀ (i : Nat) (li : List α) (y : α), ss.get? i = some li → li.get? 0 = some y →
      ∃ b, ss.flatten.get? b = some y := by
  induction ss with
  | nil =>
    intro i li y h _
    simp at h
  | cons s rest ih =>
    intro i li y hgi hy
    cases i with
    | zero =>
      have hs : s = li := by simpa using hgi
      rw [← hs] at hy
      have hlen : 0 < s.length := (List.get?_eq_some.mp hy).1
      refine ⟨0, ?_⟩
      rw [List.flatten_cons, List.get?_append hlen]
      exact hy
    | succ i' =>
      have hgi' : rest.get? i' = some li := by simpa using hgi
      obtain ⟨b, hb⟩ := ih i' li y hgi' hy
      refine ⟨s.length + b, ?_⟩
      rw [List.flatten_cons, get?_append_offset]
      exact hb

lemma flatten_two_heads {α : Type} (ss : List (List α)) :
    ∀ (j i : Nat), j < i →
      ∀ (lj li : List α), ss.get? j = some lj → ss.get? i = some li →
      ∀ (x y : α), lj.get? 0 = some x → li.get? 0 = some y →
      ∃ a b, a < b ∧ ss.flatten.get? a = some x ∧ ss.flatten.get? b = some y := by
  induction ss with
  | nil =>
    intro j i _ lj li hgj
    simp at hgj
  | cons s rest ih =>
    intro j i hji lj li hgj hgi x y hx hy
    cases j with
    | zero =>
      have hs : s = lj := by simpa using hgj
      rw [← hs] at hx
      cases i with
      | zero => omega
      | succ i' =>
        have hgi' : rest.get? i' = some li := by simpa using hgi
        obtain ⟨b, hb⟩ := flatten_head_ex rest i' li y hgi' hy
        have hlen : 0 < s.length := (List.get?_eq_some.mp hx).1
        refine ⟨0, s.length + b, by omega, ?_, ?_⟩
        · rw [List.flatten_cons, List.get?_append hlen]
          exact hx
        · rw [List.flatten_cons, get?_append_offset]
          exact hb
    | succ j' =>
      cases i with
      | zero => omega
      | succ i' =>
        have hgj' : rest.get? j' = some lj := by simpa using hgj
        have hgi' : rest.get? i' = some li := by simpa using hgi
        obtain ⟨a, b, hab, ha, hb⟩ := ih j' i' (by omega) lj li hgj' hgi' x y hx hy
        refine ⟨s.length + a, s.length + b, by omega, ?_, ?_⟩
        · rw [List.flatten_cons, get?_append_offset]
          exact ha
        · rw [List.flatten_cons, get?_append_offset]
          exact hb

/-- C7.  For every emitted class that kept its parent annotation, the
parent's forward declaration and full-declaration header both appear at
a strictly earlier line index of the emitted output than the child's
corresponding declaration. -/
theorem claim_C7_ordering (cs : List ClassTriple) (hNN : NamesNonempty cs)
    (i : Nat) (t : OrdTriple) (hget : (order_classes cs).get? i = some t)
    (p : String) (hp : t.2.1 = some p) :
    (∃ a b, a < b ∧
      (convert_from_classes cs).get? a = some ("class " ++ p ++ ";\n") ∧
      (convert_from_classes cs).get? b = some ("class " ++ t.1 ++ ";\n")) ∧
    (∃ c d t', c < d ∧ t'.1 = p ∧
      (convert_from_classes cs).get? c = some (classHeader t') ∧
      (convert_from_classes cs).get? d = some (classHeader t)) := by
  obtain ⟨hnd, hpe0⟩ := order_classes_main cs
  obtain ⟨j, t', hj, hgj, hname⟩ := hpe0 hNN i t hget p hp
  have hilen : i < (order_classes cs).length := (List.get?_eq_some.mp hget).1
  have e1 : convert_from_classes cs
      = preambleLines ++ (((order_classes cs).map (fun t => "class " ++ t.1 ++ ";\n"))
        ++ (["\n"] ++ ((order_classes cs).map
            (classSection (compute_class_sizes (order_classes cs)))).flatten)) := by
    unfold convert_from_classes
    simp [List.append_assoc]
  have hget7 : ∀ (k : Nat) (r : List String),
      (preambleLines ++ r).get? (7 + k) = r.get? k := by
    intro k r
    have h := get?_append_offset preambleLines r k
    have hpre : preambleLines.length = 7 := rfl
    rwa [hpre] at h
  have hfwd : ∀ (k : Nat) (tk : OrdTriple), (order_classes cs).get? k = some tk →
      (convert_from_classes cs).get? (7 + k) = some ("class " ++ tk.1 ++ ";\n") := by
    intro k tk hk
    rw [e1, hget7]
    have hklt : k < ((order_classes cs).map (fun t => "class " ++ t.1 ++ ";\n")).length := by
      rw [List.length_map]
      exact (List.get?_eq_some.mp hk).1
    rw [List.get?_append hklt, List.get?_map, hk]
    rfl
  have hbody : ∀ m : Nat,
      (convert_from_classes cs).get? (7 + ((order_classes cs).length + (1 + m)))
        = (((order_classes cs).map
            (classSection (compute_class_sizes (order_classes cs)))).flatten).get? m := by
    intro m
    rw [e1, hget7]
    have hlenf : ((order_classes cs).map (fun t => "class " ++ t.1 ++ ";\n")).length
        = (order_classes cs).length := List.length_map _ _
    rw [← hlenf, get?_append_offset]
    have h1 : (["\n"] : List String).length = 1 := rfl
    rw [← h1, get?_append_offset]
  constructor
  · exact ⟨7 + j, 7 + i, by omega, hname ▸ hfwd j t' hgj, hfwd i t hget⟩
  · have hsj : ((order_classes cs).map
        (classSection (compute_class_sizes (order_classes cs)))).get? j
        = some (classSection (compute_class_sizes (order_classes cs)) t') := by
      rw [List.get?_map, hgj]
      rfl
    have hsi : ((order_classes cs).map
        (classSection (compute_class_sizes (order_classes cs)))).get? i
        = some (classSection (compute_class_sizes (order_classes cs)) t) := by
      rw [List.get?_map, hget]
      rfl
    have hhj : (classSection (compute_class_sizes (order_classes cs)) t').get? 0
        = some (classHeader t') := rfl
    have hhi : (classSection (compute_class_sizes (order_classes cs)) t).get? 0
        = some (classHeader t) := rfl
    obtain ⟨a, b, hab, ha, hb⟩ := flatten_two_heads _ j i hj _ _ hsj hsi _ _ hhj hhi
    refine ⟨7 + ((order_classes cs).length + (1 + a)),
      7 + ((order_classes cs).length + (1 + b)), t', by omega, hname, ?_, ?_⟩
    · rw [hbody]
      exact ha
    · rw [hbody]
      exact hb

/-- C7 witness at a concrete input where class A inherits from class B
and B is extracted after A. -/
theorem claim_C7_witness :
    (∃ a b, a < b ∧
      (convert_from_classes (parse_classes tChain)).get? a = some ("class " ++ "B" ++ ";\n") ∧
      (convert_from_classes (parse_classes tChain)).get? b = some ("class " ++ "A" ++ ";\n")) ∧
    (∃ c d t', c < d ∧ t'.1 = "B" ∧
      (convert_from_classes (parse_classes tChain)).get? c = some (classHeader t') ∧
      (convert_from_classes (parse_classes tChain)).get? d
        = some (classHeader ("A", some "B", []))) :=
  claim_C7_ordering (parse_classes tChain) (by unfold NamesNonempty; decide) 1
    ("A", some "B", []) (by decide) "B" rfl

/- ==================================================================
   Padding correctness: every emitted field lands at its offset. -/

lemma sumSizes_append (ms : List Member) (m : Member) :
    sumSizes (ms ++ [m]) = sumSizes ms + memberSize m := by
  simp [sumSizes]

lemma memberOffset_emitted (g : String × Nat × String) :
    memberOffset (emittedMember g) = some g.2.1 := by
  unfold emittedMember
  cases normalize_type g.2.2 <;> rfl

lemma emitStep_eq_of_parsed (ms : List Member) (c : Nat) (line : String)
    (g : String × Nat × String) (hs : offsetSearch line = some g)
    (hge : ¬ g.2.1 < c) :
    emitStep (ms, c) line
      = ((if g.2.1 > c then ms ++ [Member.padding c (g.2.1 - c)] else ms)
          ++ [emittedMember g],
         g.2.1 + memberSize (emittedMember g)) := by
  by_cases hgt : g.2.1 > c <;> cases hn : normalize_type g.2.2 <;>
    simp [emitStep, hs, hge, hgt, hn, emittedMember, memberSize]

lemma offsets_append (base : Nat) (ms : List Member) (m : Member)
    (hprev : ∀ (k : Nat) (m0 : Member) (off : Nat), ms.get? k = some m0 →
      memberOffset m0 = some off → base + sumSizes (ms.take k) = off)
    (hm : ∀ off, memberOffset m = some off → base + sumSizes ms = off) :
    ∀ (k : Nat) (m0 : Member) (off : Nat), (ms ++ [m]).get? k = some m0 →
      memberOffset m0 = some off → base + sumSizes ((ms ++ [m]).take k) = off := by
  intro k m0 off hk hoff
  by_cases hlt : k < ms.length
  · rw [List.get?_append hlt] at hk
    rw [List.take_append_of_le_length (le_of_lt hlt)]
    exact hprev k m0 off hk hoff
  · have hk2 : k = ms.length := by
      have hlen := (List.get?_eq_some.mp hk).1
      rw [List.length_append] at hlen
      simp at hlen
      omega
    subst hk2
    have hg : (ms ++ [m]).get? ms.length = some m := by
      have h := get?_append_offset ms [m] 0
      simpa using h
    rw [hg] at hk
    injection hk with hk
    subst hk
    rw [List.take_left]
    exact hm off hoff

lemma emitFold_offsets (fields : List String) :
    ∀ (base : Nat) (ms : List Member) (c : Nat),
      c = base + sumSizes ms →
      (∀ (k : Nat) (m0 : Member) (off : Nat), ms.get? k = some m0 →
        memberOffset m0 = some off → base + sumSizes (ms.take k) = off) →
      (fields.foldl emitStep (ms, c)).2
          = base + sumSizes (fields.foldl emitStep (ms, c)).1 ∧
      (∀ (k : Nat) (m0 : Member) (off : Nat),
        ((fields.foldl emitStep (ms, c)).1).get? k = some m0 →
        memberOffset m0 = some off →
        base + sumSizes (((fields.foldl emitStep (ms, c)).1).take k) = off) := by
  induction fields with
  | nil =>
    intro base ms c hc hp
    exact ⟨hc, hp⟩
  | cons l fs ih =>
    intro base ms c hc hp
    rw [List.foldl_cons]
    cases hs : offsetSearch l with
    | none =>
      have hstep : emitStep (ms, c) l = (ms, c) := by
        unfold emitStep
        rw [hs]
      rw [hstep]
      exact ih base ms c hc hp
    | some g =>
      by_cases hlt : g.2.1 < c
      · have hstep : emitStep (ms, c) l = (ms, c) := by
          unfold emitStep
          rw [hs]
          simp [hlt]
        rw [hstep]
        exact ih base ms c hc hp
      · rw [emitStep_eq_of_parsed ms c l g hs hlt]
        have hc1 : g.2.1 = base
            + sumSizes (if g.2.1 > c then ms ++ [Member.padding c (g.2.1 - c)] else ms) := by
          by_cases hgt : g.2.1 > c
          · rw [if_pos hgt, sumSizes_append]
            have : memberSize (Member.padding c (g.2.1 - c)) = g.2.1 - c := rfl
            rw [this]
            omega
          · have he : g.2.1 = c := by omega
            rw [if_neg hgt, he]
            exact hc
        have hp1 : ∀ (k : Nat) (m0 : Member) (off : Nat),
            (if g.2.1 > c then ms ++ [Member.padding c (g.2.1 - c)] else ms).get? k
              = some m0 →
            memberOffset m0 = some off →
            base + sumSizes ((if g.2.1 > c then ms ++ [Member.padding c (g.2.1 - c)]
              else ms).take k) = off := by
          by_cases hgt : g.2.1 > c
          · rw [if_pos hgt]
            refine offsets_append base ms _ hp ?_
            intro off hoff
            simp [memberOffset] at hoff
          · rw [if_neg hgt]
            exact hp
        have hc2 : g.2.1 + memberSize (emittedMember g)
            = base + sumSizes ((if g.2.1 > c then ms ++ [Member.padding c (g.2.1 - c)]
                else ms) ++ [emittedMember g]) := by
          rw [sumSizes_append]
          omega
        have hp2 := offsets_append base _ (emittedMember g) hp1 (by
          intro off hoff
          rw [memberOffset_emitted] at hoff
          injection hoff with hoff
          omega)
        exact ih base _ _ hc2 hp2

/-- C3.  Every field that survives to emission lands at its dumped byte
offset: the parent share of the cursor (the parent's computed size, or
zero without a parent) plus the byte sizes of all members emitted
before the field equals the field's declared offset. -/
theorem claim_C3_padding (cs : List ClassTriple) (i : Nat) (t : OrdTriple)
    (hget : (order_classes cs).get? i = some t) (k : Nat) (m : Member) (off : Nat)
    (hm : ((emitFields (match t.2.1 with
        | some p => dictGetD (compute_class_sizes (order_classes cs)) p 0
        | none => 0) t.2.2).1).get? k = some m)
    (hoff : memberOffset m = some off) :
    (match t.2.1 with
      | some p => dictGetD (compute_class_sizes (order_classes cs)) p 0
      | none => 0)
      + sumSizes (((emitFields (match t.2.1 with
          | some p => dictGetD (compute_class_sizes (order_classes cs)) p 0
          | none => 0) t.2.2).1).take k) = off := by
  unfold emitFields at hm ⊢
  exact (emitFold_offsets t.2.2 _ [] _ (by simp [sumSizes])
    (by intro k0 m0 off0 h0; simp at h0)).2 k m off hm hoff

/-- C3 witness: in the concrete scenario class, the vector field at
index two of the emitted body lands at byte offset sixteen. -/
theorem claim_C3_witness :
    (0 : Nat) + sumSizes (((emitFields 0
        ["constexpr std::ptrdiff_t m_flHealth = 0x0; // float32",
         "constexpr std::ptrdiff_t m_vecPos = 0x10; // Vector"]).1).take 2) = 16 :=
  claim_C3_padding (parse_classes tScenario) 0
    ("CFoo", none,
      ["constexpr std::ptrdiff_t m_flHealth = 0x0; // float32",
       "constexpr std::ptrdiff_t m_vecPos = 0x10; // Vector"])
    (by decide) 2 (Member.scalarField "Vector3" "m_vecPos" 16 "Vector") 16
    (by decide) (by decide)

/- ==================================================================
   Extraction well-formedness: the parent group of every match is a
   nonempty word, and a text without the annotation yields nothing. -/

lemma word_run_wf (w : List Char) (hne : ¬ w = [])
    (hall : ∀ c ∈ w, isPyWord c = true) :
    String.mk w ≠ "" ∧ (String.mk w).data.all isPyWord := by
  constructor
  · intro hs
    apply hne
    have h : (String.mk w).data = ("" : String).data := by rw [hs]
    simpa using h
  · simpa [List.all_eq_true] using hall

lemma takeWhile_word_wf (r2 : List Char)
    (hw : ¬ (r2.takeWhile isPyWord).isEmpty = true) :
    String.mk (r2.takeWhile isPyWord) ≠ ""
      ∧ (String.mk (r2.takeWhile isPyWord)).data.all isPyWord := by
  apply word_run_wf
  · intro he
    rw [List.isEmpty_iff] at hw
    exact hw he
  · intro c hc
    exact List.mem_takeWhile_imp hc

lemma tailMatch_wf (p : List Char) (nm body : String) (rest : List Char)
    (h : tailMatch p = some (nm, body, rest)) :
    nm ≠ "" ∧ nm.data.all isPyWord := by
  unfold tailMatch at h
  dsimp only at h
  split at h
  · exact absurd h (by simp)
  · split at h
    · exact absurd h (by simp)
    · split at h
      · exact absurd h (by simp)
      · split at h
        · split at h
          · injection h with h1
            injection h1 with h1 h2
            rw [← h1]
            apply takeWhile_word_wf
            simp_all
          · exact absurd h (by simp)
        · exact absurd h (by simp)

lemma scanTail_wf : ∀ (p : List Char) (nm body : String) (rest : List Char),
    scanTail p = some (nm, body, rest) → nm ≠ "" ∧ nm.data.all isPyWord := by
  intro p
  induction p with
  | nil =>
    intro nm body rest h
    simp [scanTail] at h
  | cons c t ih =>
    intro nm body rest h
    simp only [scanTail] at h
    split at h
    · rename_i r heq
      obtain ⟨nm0, body0, rest0⟩ := r
      injection h with h1
      rw [h1] at heq
      exact tailMatch_wf _ _ _ _ heq
    · exact ih nm body rest h

lemma classDescend_wf (w r2 : List Char) :
    ∀ (l : Nat) (g1 nm body : String) (rest : List Char),
      classDescend w r2 l = some (g1, nm, body, rest) →
      (∃ lp, 1 ≤ lp ∧ lp ≤ l ∧ g1 = String.mk (w.take lp)) ∧
        nm ≠ "" ∧ nm.data.all isPyWord := by
  intro l
  induction l with
  | zero =>
    intro g1 nm body rest h
    simp [classDescend] at h
  | succ l ih =>
    intro g1 nm body rest h
    simp only [classDescend] at h
    split at h
    · rename_i nm0 body0 rest0 heq
      injection h with h1
      injection h1 with h1 h2
      injection h2 with h2 h3
      injection h3 with h3 h4
      refine ⟨⟨l + 1, by omega, by omega, h1.symm⟩, ?_⟩
      have := scanTail_wf _ _ _ _ heq
      rw [← h2]
      exact this
    · obtain ⟨⟨lp, hlp1, hlp2, hg1⟩, hwf⟩ := ih g1 nm body rest h
      exact ⟨⟨lp, hlp1, by omega, hg1⟩, hwf⟩

lemma tryClassAt_wf (s : List Char) (g1 g2 g3 : String) (rest : List Char)
    (h : tryClassAt s = some (g1, g2, g3, rest)) :
    (g1 ≠ "" ∧ g1.data.all isPyWord) ∧ (g2 ≠ "" ∧ g2.data.all isPyWord) := by
  unfold tryClassAt at h
  dsimp only at h
  split at h
  · exact absurd h (by simp)
  · split at h
    · exact absurd h (by simp)
    · obtain ⟨⟨lp, hlp1, hlp2, hg1⟩, hg2⟩ := classDescend_wf _ _ _ g1 g2 g3 rest h
      refine ⟨?_, hg2⟩
      rw [hg1]
      apply word_run_wf
      · intro he
        have hlen := congrArg List.length he
        rw [List.length_take, List.length_nil] at hlen
        omega
      · intro c hc
        exact List.mem_takeWhile_imp (List.mem_of_mem_take hc)

lemma classFinditerAux_wf :
    ∀ (fuel : Nat) (s : List Char) (g : String × String × String),
      g ∈ classFinditerAux fuel s →
      (g.1 ≠ "" ∧ g.1.data.all isPyWord) ∧ (g.2.1 ≠ "" ∧ g.2.1.data.all isPyWord) := by
  intro fuel
  induction fuel with
  | zero =>
    intro s g h
    simp [classFinditerAux] at h
  | succ fuel ih =>
    intro s g h
    cases s with
    | nil => simp [classFinditerAux] at h
    | cons c t =>
      simp only [classFinditerAux] at h
      split at h
      · rename_i g1 g2 g3 rest heq
        rcases List.mem_cons.mp h with h1 | h1
        · rw [h1]
          exact tryClassAt_wf _ _ _ _ _ heq
        · exact ih rest g h1
      · exact ih t g h

lemma parse_classes_wf (text : String) :
    ∀ tr ∈ parse_classes text, (tr.1 ≠ "" ∧ tr.1.data.all isPyWord) ∧
      (tr.2.1 ≠ "" ∧ tr.2.1.data.all isPyWord) := by
  intro tr htr
  unfold parse_classes at htr
  obtain ⟨g, hg, heq⟩ := List.mem_map.mp htr
  have hwf := classFinditerAux_wf _ _ g hg
  rw [← heq]
  exact ⟨hwf.2, hwf.1⟩

/-- parse_classes only ever yields records with nonempty names. -/
lemma parse_NamesNonempty (text : String) : NamesNonempty (parse_classes text) :=
  fun t ht => (parse_classes_wf text t ht).1.1

lemma no_mark_no_match : ∀ (fuel : Nat) (s : List Char), hasParentMark s = false →
    classFinditerAux fuel s = [] := by
  intro fuel
  induction fuel with
  | zero =>
    intro s _
    rfl
  | succ fuel ih =>
    intro s hm
    cases s with
    | nil => rfl
    | cons c t =>
      simp only [hasParentMark, Bool.or_eq_false_iff] at hm
      have h1 : dropLit parentLit (c :: t) = none := by
        cases hd : dropLit parentLit (c :: t) with
        | none => rfl
        | some r =>
          rw [hd] at hm
          simp at hm
      have htc : tryClassAt (c :: t) = none := by
        unfold tryClassAt
        rw [h1]
      simp only [classFinditerAux, htc]
      exact ih t hm.2

lemma kahnAux_resolvable (ntc : List (String × ClassTriple))
    (rev : List (String × List String)) :
    ∀ (fuel : Nat) (queue : List String) (indeg : List (String × Int))
      (acc : List OrdTriple),
      (∀ t ∈ acc, ∀ p, t.2.1 = some p → dictContains ntc p = true) →
      ∀ t ∈ kahnAux ntc rev fuel queue indeg acc, ∀ p, t.2.1 = some p →
        dictContains ntc p = true := by
  intro fuel
  induction fuel with
  | zero =>
    intro queue indeg acc hacc
    simpa [kahnAux] using hacc
  | succ fuel ih =>
    intro queue indeg acc hacc
    cases queue with
    | nil => simpa [kahnAux] using hacc
    | cons n qs =>
      simp only [kahnAux]
      cases hget : dictGet ntc n with
      | none => exact hacc
      | some t0 =>
        apply ih
        intro t ht p hp
        rcases List.mem_append.mp ht with ht | ht
        · exact hacc t ht p hp
        · have ht1 : t = (n, if dictContains ntc t0.2.1 = true
              then some t0.2.1 else none, t0.2.2) := by simpa using ht
          rw [ht1] at hp
          by_cases hc : dictContains ntc t0.2.1 = true
          · rw [if_pos hc] at hp
            injection hp with hp
            rw [← hp]
            exact hc
          · rw [if_neg hc] at hp
            simp at hp

/-- C10.  Every record the extractor produces carries a nonempty
identifier as its parent annotation (the regex requires the annotation
line before the block); a text in which the parent-annotation marker
never occurs produces no records at all, so unannotated blocks are
silently absent; and a missing parent arises only downstream: every
ordered record whose parent survived points at an extracted class
name. -/
theorem claim_C10_parent_required :
    (∀ (text : String) (tr : ClassTriple), tr ∈ parse_classes text →
      tr.2.1 ≠ "" ∧ tr.2.1.data.all isPyWord) ∧
    (∀ text : String, hasParentMark text.data = false → parse_classes text = []) ∧
    (∀ (cs : List ClassTriple) (t : OrdTriple), t ∈ order_classes cs →
      ∀ p, t.2.1 = some p → p ∈ clsNames cs) := by
  refine ⟨?_, ?_, ?_⟩
  · intro text tr htr
    exact (parse_classes_wf text tr htr).2
  · intro text hm
    unfold parse_classes
    rw [no_mark_no_match _ _ hm]
    rfl
  · intro cs t ht p hp
    have hres := kahnAux_resolvable (buildNtc cs) (buildDepRev (buildNtc cs) cs).2 _ _ _ _
      (by intro t0 ht0; simp at ht0) t ht p hp
    exact buildNtc_contains_mem cs p hres

/-- C10 witness: the duplicated-name input yields records whose parent
groups are nonempty identifiers; a bare namespace block with no
annotation yields no records; and the surviving parent of the ordered
two-class input is an extracted name. -/
theorem claim_C10_witness :
    (("A", "P", ([] : List String)).2.1 ≠ ""
      ∧ ("A", "P", ([] : List String)).2.1.data.all isPyWord) ∧
    parse_classes ("namespace Solo \x7bconstexpr std::ptrdiff_t a = 0x0; // int\x7d") = [] ∧
    "CBase" ∈ clsNames csPair := by
  refine ⟨?_, ?_, ?_⟩
  · exact claim_C10_parent_required.1 tDup ("A", "P", []) (by decide)
  · exact claim_C10_parent_required.2.1
      ("namespace Solo \x7bconstexpr std::ptrdiff_t a = 0x0; // int\x7d") (by decide)
  · exact claim_C10_parent_required.2.2 csPair
      ("CChild", some "CBase", [fieldLineB]) (by decide) "CBase" rfl

end NTC
